import Mathlib

/-!
Shallow embedding of the constraint-system core of the STARK-style verifier
(crate `verify`, module `constraint`): the node DAG, zerofier expressions,
chip and machine metadata validation, and the quotient check.

Rust `Vec` becomes `List`, `usize` becomes `ℕ`, fallible functions return
`Except`, and code paths that can panic (out-of-range indexing, `unwrap`)
are modelled in the `Option` monad, `none` standing for a panic.

The base field `F` and extension field `EF` are supplied by the outer proof
system (crate `p3_field`); they are abstracted by the `ExtField` record
below, holding the extension degree `D`, the base-to-extension embedding,
the monomial basis, and the two-adic generator.
-/

namespace Plonky3

/-- Decidable equality for `Except`, used to evaluate the embedded
validators on concrete inputs. -/
instance {ε α : Type} [DecidableEq ε] [DecidableEq α] : DecidableEq (Except ε α) := fun x y =>
  match x, y with
  | .ok a, .ok b =>
      if h : a = b then isTrue (congrArg Except.ok h)
      else isFalse fun hh => h (Except.ok.inj hh)
  | .ok _, .error _ => isFalse fun hh => Except.noConfusion hh
  | .error _, .ok _ => isFalse fun hh => Except.noConfusion hh
  | .error e, .error f =>
      if h : e = f then isTrue (congrArg Except.error h)
      else isFalse fun hh => h (Except.error.inj hh)

/-- Abstraction of the external pair of types `(F, EF)` with
`EF: ExtensionField<F>` from `p3_field`: extension degree `D`,
base embedding `From<F> for EF` / `EF::from_base`, the monomial basis
`EF::monomial`, the slice constructor `EF::from_base_slice`, and
`F::two_adic_generator`. -/
structure ExtField (F EF : Type) where
  D : ℕ
  fromBase : F → EF
  monomial : ℕ → EF
  fromBaseSlice : List F → EF
  twoAdicGenerator : ℕ → F

/-- `Field::try_inverse`: `some x⁻¹` for nonzero `x`, `none` for zero. -/
def tryInverse {EF : Type} [Field EF] [DecidableEq EF] (x : EF) : Option EF :=
  if x = 0 then none else some x⁻¹

/-- `usize::next_power_of_two`, written with explicit fuel so that it is
structurally recursive (the Rust loop doubles `power` until it reaches `n`;
`n` iterations are always enough). -/
def nextPowerOfTwoGo (n : ℕ) : ℕ → ℕ → ℕ
  | 0, power => power
  | fuel + 1, power => if power < n then nextPowerOfTwoGo n fuel (power * 2) else power

/-- `usize::next_power_of_two`: the smallest power of two that is `≥ n`. -/
def nextPowerOfTwo (n : ℕ) : ℕ := nextPowerOfTwoGo n n 1

/-- `usize::is_power_of_two`, written with explicit fuel. -/
def isPow2Go : ℕ → ℕ → Bool
  | _, 0 => false
  | 0, _ => false
  | fuel + 1, n => n == 1 || (n % 2 == 0 && isPow2Go fuel (n / 2))

/-- `usize::is_power_of_two`. -/
def isPow2 (n : ℕ) : Bool := isPow2Go n n

/-- `p3_matrix::Dimensions`. -/
structure Dimensions where
  width : ℕ
  height : ℕ
deriving DecidableEq

/-- `constraint::Expression`: a constraint, pairing a node index with an
optional zerofier index. -/
structure Expression where
  node_id : ℕ
  zerofier_id : Option ℕ
deriving DecidableEq

/-- `node::FieldType`. -/
inductive FieldType
  | Base
  | Ext
deriving DecidableEq

/-- `node::VarScope`. -/
inductive VarScope
  | Global
  | Local (chip_id : ℕ)
deriving DecidableEq

/-- `node::Node`: one instruction of the straight-line arithmetic program. -/
inductive Node (F : Type)
  | Constant (c : F)
  | Trace (segment col_offset row_offset : ℕ) (field_type : FieldType)
  | Var (scope : VarScope) (group offset : ℕ) (field_type : FieldType)
  | Periodic (column : ℕ)
  | Add (lhs_id rhs_id : ℕ)
  | Sub (lhs_id rhs_id : ℕ)
  | Mul (lhs_id rhs_id : ℕ)
deriving DecidableEq

/-- `node::NodeError`. -/
inductive NodeError
  | InvalidReference (i : ℕ)
  | SharedVariableAccess
  | Variable (i : ℕ)
  | Trace (i : ℕ)
  | Periodic (i : ℕ)
deriving DecidableEq

/-- `zerofier::Exponent`. -/
inductive Exponent
  | First (i : ℕ)
  | Last (i : ℕ)
  | Rate (i : ℕ)
deriving DecidableEq

/-- `Exponent::power`. -/
def Exponent.power (e : Exponent) (n : ℕ) : ℕ :=
  match e with
  | .First i => i
  | .Last i => n - i
  | .Rate i => n / i

/-- `zerofier::ZerofierExpression`. -/
inductive ZerofierExpression (F : Type)
  | Constant (c : F)
  | X (e : Exponent)
  | G (e : Exponent)
  | Add (lhs rhs : ZerofierExpression F)
  | Sub (lhs rhs : ZerofierExpression F)
  | Mul (lhs rhs : ZerofierExpression F)
  | Div (lhs rhs : ZerofierExpression F)
deriving DecidableEq

/-- `ZerofierExpression::eval`.  Note that the source evaluates the `G`
variant as `x.exp_u64(exp.power(n) as u64)`, exactly like `X`; the
parameter `g` is unused. -/
def ZerofierExpression.eval {F EF : Type} [Field F] [Field EF] [DecidableEq EF]
    (E : ExtField F EF) : ZerofierExpression F → EF → F → ℕ → Option EF
  | .Constant c, _, _, _ => some (E.fromBase c)
  | .X e, x, _, n => some (x ^ e.power n)
  | .G e, x, _, n => some (x ^ e.power n)
  | .Add lhs rhs, x, g, n => do pure ((← lhs.eval E x g n) + (← rhs.eval E x g n))
  | .Sub lhs rhs, x, g, n => do pure ((← lhs.eval E x g n) - (← rhs.eval E x g n))
  | .Mul lhs rhs, x, g, n => do pure ((← lhs.eval E x g n) * (← rhs.eval E x g n))
  | .Div lhs rhs, x, g, n => do
      pure ((← lhs.eval E x g n) * (← tryInverse (← rhs.eval E x g n)))

/-- `constraint::unflatten_extension`: rebuild an extension element from its
`D` base coefficients (each already embedded into `EF`).  The source asserts
`bases.len() == EF::D`; its only caller chunks by `D`, so the assertion holds. -/
def unflattenExtension {F EF : Type} [Field EF] (E : ExtField F EF) (bases : List EF) : EF :=
  (bases.enum.map fun p => E.monomial p.1 * p.2).sum

/-- `slice::chunks_exact`, with explicit fuel for structural recursion:
maximal list of consecutive length-`k` chunks, any remainder dropped. -/
def chunksExactGo {α : Type} (k : ℕ) : ℕ → List α → List (List α)
  | 0, _ => []
  | fuel + 1, l => if 0 < k ∧ k ≤ l.length then l.take k :: chunksExactGo k fuel (l.drop k) else []

/-- `slice::chunks_exact`. -/
def chunksExact {α : Type} (k : ℕ) (l : List α) : List (List α) :=
  chunksExactGo k l.length l

/-- `Node::eval`: evaluate one node given the evaluations of the preceding
nodes.  All the slice indexing of the source can panic; a panic is `none`. -/
def Node.eval {F EF : Type} [Field F] [Field EF] (E : ExtField F EF) (node : Node F)
    (prev_evals : List EF) (global_variables : List (List F))
    (local_variables : List (List (List F))) (trace_evals : List (List (List EF)))
    (periodic_evals : List EF) : Option EF :=
  match node with
  | .Constant c => some (E.fromBase c)
  | .Trace segment col_offset row_offset field_type =>
      match trace_evals[segment]? >>= fun seg => seg[row_offset]? with
      | none => none
      | some row =>
        match field_type with
        | .Base => row[col_offset]?
        | .Ext =>
            if col_offset + E.D ≤ row.length then
              some (unflattenExtension E ((row.drop col_offset).take E.D))
            else none
  | .Var scope group offset field_type =>
      let vars? : Option (List (List F)) :=
        match scope with
        | .Global => some global_variables
        | .Local chip_id => local_variables[chip_id]?
      match vars? >>= fun vars => vars[group]? with
      | none => none
      | some data =>
        match field_type with
        | .Base => (data[offset]?).map E.fromBase
        | .Ext =>
            if offset + E.D ≤ data.length then
              some (E.fromBaseSlice ((data.drop offset).take E.D))
            else none
  | .Periodic column => periodic_evals[column]?
  | .Add lhs_id rhs_id => do pure ((← prev_evals[lhs_id]?) + (← prev_evals[rhs_id]?))
  | .Sub lhs_id rhs_id => do pure ((← prev_evals[lhs_id]?) - (← prev_evals[rhs_id]?))
  | .Mul lhs_id rhs_id => do pure ((← prev_evals[lhs_id]?) * (← prev_evals[rhs_id]?))

/-- The sequential node-evaluation loop of `ChipData::check_quotient`:
each node is evaluated against the list of already-computed evaluations,
and its value is pushed at the end. -/
def evalNodes {F EF : Type} [Field F] [Field EF] (E : ExtField F EF) (nodes : List (Node F))
    (global_variables : List (List F)) (local_variables : List (List (List F)))
    (trace_evals : List (List (List EF))) (periodic_evals : List EF) : Option (List EF) :=
  nodes.foldlM
    (fun evals node =>
      (node.eval E evals global_variables local_variables trace_evals periodic_evals).map
        fun v => evals ++ [v])
    []

/-- The per-node test of `NodesInfo::new`: an arithmetic node at index `i`
must reference strictly earlier nodes. -/
def nodeTopoOk {F : Type} (i : ℕ) : Node F → Bool
  | .Add lhs_id rhs_id => decide (lhs_id < i ∧ rhs_id < i)
  | .Sub lhs_id rhs_id => decide (lhs_id < i ∧ rhs_id < i)
  | .Mul lhs_id rhs_id => decide (lhs_id < i ∧ rhs_id < i)
  | _ => true

/-- Loop of `NodesInfo::new`, carrying the index of the current node. -/
def newGo {F : Type} : ℕ → List (Node F) → Except NodeError Unit
  | _, [] => .ok ()
  | i, node :: rest =>
      if nodeTopoOk i node then newGo (i + 1) rest else .error (.InvalidReference i)

/-- `NodesInfo::new`: enforce the topological invariant, reporting the first
violating node.  The Rust constructor returns the wrapper around the borrowed
slice; only the validation outcome is modelled. -/
def NodesInfo.new {F : Type} (nodes : List (Node F)) : Except NodeError Unit :=
  newGo 0 nodes

/-- Element width of a `Base` or `Ext` reference. -/
def ExtField.elementWidth {F EF : Type} (E : ExtField F EF) : FieldType → ℕ
  | .Base => 1
  | .Ext => E.D

/-- `NodesInfo::element_exceeds_width`: `offset + element_width > width`. -/
def ExtField.elementExceedsWidth {F EF : Type} (E : ExtField F EF)
    (width offset : ℕ) (field_type : FieldType) : Bool :=
  decide (width < offset + E.elementWidth field_type)

/-- Loop of `NodesInfo::validate_shared_variables`. -/
def validateSharedGo {F EF : Type} (E : ExtField F EF) (num_shared_vars : List (List ℕ)) :
    ℕ → List (Node F) → Except NodeError Unit
  | _, [] => .ok ()
  | i, node :: rest =>
      match node with
      | .Var (.Local chip_id) group offset field_type =>
          match num_shared_vars[chip_id]? >>= fun groups => groups[group]? with
          | none => .error (.Variable i)
          | some variable_group_size =>
              if E.elementExceedsWidth variable_group_size offset field_type then
                .error (.Variable i)
              else validateSharedGo E num_shared_vars (i + 1) rest
      | _ => validateSharedGo E num_shared_vars (i + 1) rest

/-- `NodesInfo::validate_shared_variables`. -/
def validate_shared_variables {F EF : Type} (E : ExtField F EF) (nodes : List (Node F))
    (num_shared_vars : List (List ℕ)) : Except NodeError Unit :=
  validateSharedGo E num_shared_vars 0 nodes

/-- `NodesInfo::validate_local_variables`. -/
def validate_local_variables {F EF : Type} (E : ExtField F EF) (nodes : List (Node F))
    (num_local_variables : List ℕ) : Except NodeError Unit :=
  validate_shared_variables E nodes [num_local_variables]

/-- Loop of `NodesInfo::validate_global_variables`. -/
def validateGlobalGo {F EF : Type} (E : ExtField F EF) (num_variables : List ℕ) :
    ℕ → List (Node F) → Except NodeError Unit
  | _, [] => .ok ()
  | i, node :: rest =>
      match node with
      | .Var .Global group offset field_type =>
          match num_variables[group]? with
          | none => .error (.Variable i)
          | some variable_group_size =>
              if E.elementExceedsWidth variable_group_size offset field_type then
                .error (.Variable i)
              else validateGlobalGo E num_variables (i + 1) rest
      | _ => validateGlobalGo E num_variables (i + 1) rest

/-- `NodesInfo::validate_global_variables`. -/
def validate_global_variables {F EF : Type} (E : ExtField F EF) (nodes : List (Node F))
    (num_variables : List ℕ) : Except NodeError Unit :=
  validateGlobalGo E num_variables 0 nodes

/-- Loop of `NodesInfo::validate_periodic`. -/
def validatePeriodicGo {F : Type} (num_periodic_columns : ℕ) :
    ℕ → List (Node F) → Except NodeError Unit
  | _, [] => .ok ()
  | i, node :: rest =>
      match node with
      | .Periodic column =>
          if num_periodic_columns ≤ column then .error (.Periodic i)
          else validatePeriodicGo num_periodic_columns (i + 1) rest
      | _ => validatePeriodicGo num_periodic_columns (i + 1) rest

/-- `NodesInfo::validate_periodic`. -/
def validate_periodic {F : Type} (nodes : List (Node F)) (num_periodic_columns : ℕ) :
    Except NodeError Unit :=
  validatePeriodicGo num_periodic_columns 0 nodes

/-- The degree rule of one node in `NodesInfo::get_degrees`, reading the
degrees of earlier nodes from the accumulator.  The source indexes the
accumulator directly; the validated topological invariant keeps the indices
in range, so the `getD` default is never read on validated inputs. -/
def nodeDegree {F : Type} (degrees : List ℕ) : Node F → ℕ
  | .Constant _ => 0
  | .Var _ _ _ _ => 0
  | .Trace _ _ _ _ => 1
  | .Periodic _ => 1
  | .Add lhs_id rhs_id => max (degrees.getD lhs_id 0) (degrees.getD rhs_id 0)
  | .Sub lhs_id rhs_id => max (degrees.getD lhs_id 0) (degrees.getD rhs_id 0)
  | .Mul lhs_id rhs_id => degrees.getD lhs_id 0 + degrees.getD rhs_id 0

/-- Loop of `NodesInfo::get_degrees`, pushing one degree per node. -/
def getDegreesGo {F : Type} : List ℕ → List (Node F) → List ℕ
  | degrees, [] => degrees
  | degrees, node :: rest => getDegreesGo (degrees ++ [nodeDegree degrees node]) rest

/-- `NodesInfo::get_degrees`. -/
def getDegrees {F : Type} (nodes : List (Node F)) : List ℕ :=
  getDegreesGo [] nodes

/-- Loop of `NodesInfo::get_dimension`: infer each trace segment height as
`max(row_offset) + 1` over the referencing nodes, rejecting references to
unknown segments or column windows that overrun the declared width. -/
def getDimensionGo {F EF : Type} (E : ExtField F EF) :
    List Dimensions → ℕ → List (Node F) → Except NodeError (List Dimensions)
  | dims, _, [] => .ok dims
  | dims, i, node :: rest =>
      match node with
      | .Trace segment col_offset row_offset field_type =>
          match dims[segment]? with
          | none => .error (.Trace i)
          | some dim =>
              let dims2 := dims.set segment { dim with height := max dim.height (row_offset + 1) }
              if E.elementExceedsWidth dim.width col_offset field_type then .error (.Trace i)
              else getDimensionGo E dims2 (i + 1) rest
      | _ => getDimensionGo E dims (i + 1) rest

/-- `NodesInfo::get_dimension`. -/
def getDimension {F EF : Type} (E : ExtField F EF) (nodes : List (Node F))
    (trace_widths : List ℕ) : Except NodeError (List Dimensions) :=
  getDimensionGo E (trace_widths.map fun width => ⟨width, 0⟩) 0 nodes

/-- `constraint::ChipMetadata` (validated per-chip constraint system). -/
structure ChipMetadata (F : Type) where
  num_local_variables : List ℕ
  trace_window_dimensions : List Dimensions
  periodic : List (List F)
  zerofiers : List (ZerofierExpression F)
  nodes : List (Node F)
  constraints : List Expression
  degrees : List ℕ
deriving DecidableEq

/-- `ChipMetadata::max_constraint_degree`. -/
def ChipMetadata.max_constraint_degree {F : Type} (chip : ChipMetadata F) : ℕ :=
  ((chip.constraints.map fun constraint => chip.degrees.getD constraint.node_id 0).max?).getD 0

/-- `ChipMetadata::num_quotient_evals`: pad the maximal constraint degree to
at least 2, subtract 1, and round up to a power of two. -/
def ChipMetadata.num_quotient_evals {F : Type} (chip : ChipMetadata F) : ℕ :=
  nextPowerOfTwo (max chip.max_constraint_degree 2 - 1)

/-- `chip_metadata::RawChipMetadata`. -/
structure RawChipMetadata (F : Type) where
  num_local_variables : List ℕ
  trace_widths : List ℕ
  zerofiers : List (ZerofierExpression F)
  periodic : List (List F)
  nodes : List (Node F)
  constraints : List Expression
deriving DecidableEq

/-- `chip_metadata::ChipError`. -/
inductive ChipError
  | NodeError (e : NodeError)
  | Periodic (col_idx : ℕ)
  | Constraint (idx : ℕ)
deriving DecidableEq

/-- Power-of-two loop over the periodic columns in
`TryFrom<RawChipMetadata>`. -/
def checkPeriodicPow2Go {F : Type} : ℕ → List (List F) → Except ChipError Unit
  | _, [] => .ok ()
  | col_idx, col :: rest =>
      if isPow2 col.length then checkPeriodicPow2Go (col_idx + 1) rest
      else .error (.Periodic col_idx)

/-- Constraint loop in `TryFrom<RawChipMetadata>`: reject a constraint whose
node index is out of range, or whose zerofier index is present but out of
range.  (A missing zerofier index passes this test.) -/
def checkChipConstraintsGo (num_nodes num_zerofiers : ℕ) :
    ℕ → List Expression → Except ChipError Unit
  | _, [] => .ok ()
  | idx, constraint :: rest =>
      if decide (num_nodes ≤ constraint.node_id) ||
          constraint.zerofier_id.any fun id => decide (num_zerofiers ≤ id) then
        .error (.Constraint idx)
      else checkChipConstraintsGo num_nodes num_zerofiers (idx + 1) rest

/-- `TryFrom<RawChipMetadata<F>> for ChipMetadata<F, EF>` (build_chip). -/
def buildChip {F EF : Type} (E : ExtField F EF) (value : RawChipMetadata F) :
    Except ChipError (ChipMetadata F) := do
  (NodesInfo.new value.nodes).mapError ChipError.NodeError
  (validate_local_variables E value.nodes value.num_local_variables).mapError ChipError.NodeError
  let trace_window_dimensions ←
    (getDimension E value.nodes value.trace_widths).mapError ChipError.NodeError
  (validate_periodic value.nodes value.periodic.length).mapError ChipError.NodeError
  checkPeriodicPow2Go 0 value.periodic
  checkChipConstraintsGo value.nodes.length value.zerofiers.length 0 value.constraints
  let degrees := getDegrees value.nodes
  pure { num_local_variables := value.num_local_variables, trace_window_dimensions,
         periodic := value.periodic, zerofiers := value.zerofiers, nodes := value.nodes,
         constraints := value.constraints, degrees }

/-- `constraint::MachineMetadata` (validated machine). -/
structure MachineMetadata (F : Type) where
  num_global_variables : List ℕ
  chips : List (ChipMetadata F)
  nodes : List (Node F)
  constraints : List Expression
deriving DecidableEq

/-- `machine_metadata::RawMachineMetadata`. -/
structure RawMachineMetadata (F : Type) where
  num_global_variables : List ℕ
  chips : List (RawChipMetadata F)
  nodes : List (Node F)
  constraints : List Expression
deriving DecidableEq

/-- `machine_metadata::MachineError`. -/
inductive MachineError
  | Chip (idx : ℕ) (e : ChipError)
  | Nodes (e : NodeError)
  | Constraint (idx : ℕ)
deriving DecidableEq

/-- Chip-building loop in `TryFrom<RawMachineMetadata>`: build each chip,
then check its nodes against the machine global variables. -/
def buildMachineChipsGo {F EF : Type} (E : ExtField F EF) (num_global_variables : List ℕ) :
    ℕ → List (RawChipMetadata F) → Except MachineError (List (ChipMetadata F))
  | _, [] => .ok []
  | chip_id, raw :: rest => do
      let chip ← (buildChip E raw).mapError (MachineError.Chip chip_id)
      (validate_global_variables E chip.nodes num_global_variables).mapError
        fun e => MachineError.Chip chip_id (.NodeError e)
      let others ← buildMachineChipsGo E num_global_variables (chip_id + 1) rest
      pure (chip :: others)

/-- Machine-constraint loop in `TryFrom<RawMachineMetadata>`: reject a
constraint whose node index is out of range or whose zerofier index is
present. -/
def checkMachineConstraintsGo (num_nodes : ℕ) :
    ℕ → List Expression → Except MachineError Unit
  | _, [] => .ok ()
  | idx, constraint :: rest =>
      if decide (num_nodes ≤ constraint.node_id) || constraint.zerofier_id.isSome then
        .error (.Constraint idx)
      else checkMachineConstraintsGo num_nodes (idx + 1) rest

/-- `TryFrom<RawMachineMetadata<F>> for MachineMetadata<F, EF>` (build_machine). -/
def buildMachine {F EF : Type} (E : ExtField F EF) (value : RawMachineMetadata F) :
    Except MachineError (MachineMetadata F) := do
  (NodesInfo.new value.nodes).mapError MachineError.Nodes
  (validate_periodic value.nodes 0).mapError MachineError.Nodes
  let _ ← (getDimension E value.nodes []).mapError MachineError.Nodes
  (validate_global_variables E value.nodes value.num_global_variables).mapError
    MachineError.Nodes
  let chips ← buildMachineChipsGo E value.num_global_variables 0 value.chips
  (validate_shared_variables E value.nodes
      (chips.map fun chip => chip.num_local_variables)).mapError MachineError.Nodes
  checkMachineConstraintsGo value.nodes.length 0 value.constraints
  pure { num_global_variables := value.num_global_variables, chips, nodes := value.nodes,
         constraints := value.constraints }

/-- `chip::DataError`. -/
inductive DataError
  | NumLocalVariableGroups (actual expected : ℕ)
  | NumLocalVariables (group actual expected : ℕ)
  | NumTraces (actual expected : ℕ)
  | SegmentHeight (segment_index actual expected : ℕ)
  | SegmentRowWidth (segment_index row_index actual expected : ℕ)
  | NumQuotientEvals (actual expected : ℕ)
  | MinHeight (column_index col_len height : ℕ)
  | UndefinedZerofierEval (idx : ℕ)
  | InvalidQuotient
deriving DecidableEq

/-- `constraint::ChipData` (witness-level evaluations for one chip).  The
Rust struct borrows the metadata; here it is stored by value. -/
structure ChipData (F EF : Type) where
  chip : ChipMetadata F
  local_variables : List (List F)
  trace_evals : List (List (List EF))
  quotient_evals : List EF
  log_height : ℕ
deriving DecidableEq

/-- Periodic-column loop of `ChipData::new`: the trace height must be at
least the height of each periodic column. -/
def checkMinHeightGo {F : Type} (height : ℕ) : ℕ → List (List F) → Except DataError Unit
  | _, [] => .ok ()
  | column_index, column :: rest =>
      if height < column.length then
        .error (.MinHeight column_index column.length height)
      else checkMinHeightGo height (column_index + 1) rest

/-- Local-variable-group loop of `ChipData::new` (a `zip`, reached only
after the two group counts are known to be equal). -/
def checkLocalVarsGo {F : Type} : ℕ → List (List F) → List ℕ → Except DataError Unit
  | _, _, [] => .ok ()
  | _, [], _ :: _ => .ok ()
  | group, vars :: lv, expected :: ne =>
      if vars.length ≠ expected then
        .error (.NumLocalVariables group vars.length expected)
      else checkLocalVarsGo (group + 1) lv ne

/-- Row-width loop of `ChipData::new` for one trace segment. -/
def checkRowsGo {EF : Type} (segment_index width : ℕ) :
    ℕ → List (List EF) → Except DataError Unit
  | _, [] => .ok ()
  | row_index, row :: rest =>
      if row.length ≠ width then
        .error (.SegmentRowWidth segment_index row_index row.length width)
      else checkRowsGo segment_index width (row_index + 1) rest

/-- Segment loop of `ChipData::new` (a `zip`, reached only after the two
segment counts are known to be equal). -/
def checkSegmentsGo {EF : Type} :
    ℕ → List (List (List EF)) → List Dimensions → Except DataError Unit
  | _, _, [] => .ok ()
  | _, [], _ :: _ => .ok ()
  | segment_index, segment_rows :: te, dim :: dims =>
      if segment_rows.length ≠ dim.height then
        .error (.SegmentHeight segment_index segment_rows.length dim.height)
      else do
        checkRowsGo segment_index dim.width 0 segment_rows
        checkSegmentsGo (segment_index + 1) te dims

/-- `ChipData::new`: the shape checks, in source order (each Rust
`if cond (return Err)` becomes an `if` producing the error, each loop a
helper, sequenced by `Except.bind`). -/
def ChipData.new {F EF : Type} (E : ExtField F EF) (chip : ChipMetadata F)
    (local_variables : List (List F)) (trace_evals : List (List (List EF)))
    (quotient_evals : List EF) (log_height : ℕ) : Except DataError (ChipData F EF) :=
  (checkMinHeightGo (2 ^ log_height) 0 chip.periodic).bind fun _ =>
  if local_variables.length ≠ chip.num_local_variables.length then
    .error (.NumLocalVariableGroups local_variables.length chip.num_local_variables.length)
  else
  (checkLocalVarsGo 0 local_variables chip.num_local_variables).bind fun _ =>
  if trace_evals.length ≠ chip.trace_window_dimensions.length then
    .error (.NumTraces trace_evals.length chip.trace_window_dimensions.length)
  else
  (checkSegmentsGo 0 trace_evals chip.trace_window_dimensions).bind fun _ =>
  if quotient_evals.length ≠ chip.num_quotient_evals * E.D then
    .error (.NumQuotientEvals quotient_evals.length (chip.num_quotient_evals * E.D))
  else .ok { chip, local_variables, trace_evals, quotient_evals, log_height }

/-- Zerofier-inversion loop of `ChipData::check_quotient`: evaluate every
zerofier at `zeta` and invert it, failing with the index of the first
zerofier whose evaluation or inversion is undefined. -/
def invZerofiersGo {F EF : Type} [Field F] [Field EF] [DecidableEq EF] (E : ExtField F EF)
    (zeta : EF) (g : F) (n : ℕ) :
    ℕ → List (ZerofierExpression F) → Except DataError (List EF)
  | _, [] => .ok []
  | idx, zerofier :: rest =>
      match (zerofier.eval E zeta g n).bind tryInverse with
      | none => .error (.UndefinedZerofierEval idx)
      | some v => do pure (v :: (← invZerofiersGo E zeta g n (idx + 1) rest))

/-- Random-linear-combination fold of `ChipData::check_quotient`: iterate
over the constraints in reverse, folding `acc * alpha + eval`.  The source
indexes `evals` and the inverse-zerofier list and `unwrap`s the optional
zerofier index, all of which can panic; a panic is `none`. -/
def quotientRLC {EF : Type} [Field EF] (constraints : List Expression)
    (evals inverse_zerofier_evals : List EF) (alpha : EF) : Option EF :=
  constraints.reverse.foldlM
    (fun acc constraint => do
      let ev ← evals[constraint.node_id]?
      let z ← constraint.zerofier_id
      let izv ← inverse_zerofier_evals[z]?
      pure (acc * alpha + ev * izv))
    0

/-- Reconstruction of the claimed quotient in `ChipData::check_quotient`:
chunk `quotient_evals` by `D`, unflatten each chunk, and Horner-fold the
reversed chunk sequence with multiplier `zeta_pow_n`. -/
def claimedQuotient {F EF : Type} [Field EF] (E : ExtField F EF)
    (quotient_evals : List EF) (zeta_pow_n : EF) : EF :=
  (((chunksExact E.D quotient_evals).map (unflattenExtension E)).reverse).foldl
    (fun acc eval => acc * zeta_pow_n + eval) 0

/-- `ChipData::check_quotient`.  The outer `Option` models panics (`none`);
the inner `Except` is the returned `Result`.  The source binds
`n = 1 << log_height`, `g = two_adic_generator(log_height)`,
`zeta_pow_n = zeta.exp_power_of_2(log_height)` and the zero placeholder for
the periodic evaluations; they are inlined here.  The node-evaluation loop
and the inversion of the zerofier evaluations can short-circuit: a panic in
the former is `none`, a failed inversion in the latter is the
UndefinedZerofierEval error of the first failing index. -/
def ChipData.checkQuotient {F EF : Type} [Field F] [Field EF] [DecidableEq EF]
    (E : ExtField F EF) (data : ChipData F EF) (global_variables : List (List F))
    (zeta alpha : EF) : Option (Except DataError Unit) :=
  (evalNodes E data.chip.nodes global_variables [data.local_variables] data.trace_evals
    (data.chip.periodic.map fun _ => 0)).bind fun evals =>
  match invZerofiersGo E zeta (E.twoAdicGenerator data.log_height) (2 ^ data.log_height) 0
      data.chip.zerofiers with
  | .error e => some (.error e)
  | .ok inverse_zerofier_evals =>
      (quotientRLC data.chip.constraints evals inverse_zerofier_evals alpha).bind
        fun quotient =>
      if quotient ≠ claimedQuotient E data.quotient_evals (zeta ^ 2 ^ data.log_height) then
        some (.error .InvalidQuotient)
      else some (.ok ())

/-! ### A concrete instantiation

`F = EF = ZMod 5` with the trivial extension (`D = 1`), used to evaluate
the embedded code on concrete inputs. -/

instance : Fact (Nat.Prime 5) := ⟨by norm_num⟩

/-- Concrete base field for evaluation. -/
abbrev F5 := ZMod 5

/-- The trivial extension `EF = F = ZMod 5` of degree 1: `monomial 0 = 1`,
the embedding is the identity and `from_base_slice` reads one coefficient. -/
def extF5 : ExtField F5 F5 where
  D := 1
  fromBase := id
  monomial := fun _ => 1
  fromBaseSlice := fun l => l.headD 0
  twoAdicGenerator := fun _ => 1

/-- A raw chip whose single constraint has no zerofier reference:
`nodes = [Constant 0]`, `constraints = [(node_id = 0, zerofier_id = None)]`,
no zerofiers, no trace, no periodic columns, no locals. -/
def rawNoZf : RawChipMetadata F5 where
  num_local_variables := []
  trace_widths := []
  zerofiers := []
  periodic := []
  nodes := [.Constant 0]
  constraints := [⟨0, none⟩]

/-- The validated chip produced from `rawNoZf`. -/
def chipNoZf : ChipMetadata F5 where
  num_local_variables := []
  trace_window_dimensions := []
  periodic := []
  zerofiers := []
  nodes := [.Constant 0]
  constraints := [⟨0, none⟩]
  degrees := [0]

/-- A raw machine with no chips and one machine-level constraint that
carries a zerofier reference. -/
def rawMachineWithZf : RawMachineMetadata F5 where
  num_global_variables := []
  chips := []
  nodes := [.Constant 0]
  constraints := [⟨0, some 0⟩]

/-- A chip with one periodic column of length exactly 2 (the boundary for
log_height = 1). -/
def chipPeriodic2 : ChipMetadata F5 := { chipNoZf with periodic := [[1, 1]] }

/-- A chip with one periodic column of length 3 (one more than the trace
height for log_height = 1). -/
def chipPeriodic3 : ChipMetadata F5 := { chipNoZf with periodic := [[1, 1, 1]] }

/-- A chip with two zerofiers, the second of which evaluates to zero. -/
def chipTwoZf : ChipMetadata F5 :=
  { chipNoZf with zerofiers := [.Constant 1, .Constant 0], constraints := [] }

/-- Whether a node is an arithmetic operation (the only nodes that read the
partial evaluation list). -/
def isArithNode {F : Type} : Node F → Bool
  | .Add _ _ => true
  | .Sub _ _ => true
  | .Mul _ _ => true
  | _ => false

/-- The topological invariant for one node: an arithmetic node at index `i`
references only strictly earlier indices. -/
def arithRefsLt {F : Type} (i : ℕ) : Node F → Prop
  | .Add lhs_id rhs_id => lhs_id < i ∧ rhs_id < i
  | .Sub lhs_id rhs_id => lhs_id < i ∧ rhs_id < i
  | .Mul lhs_id rhs_id => lhs_id < i ∧ rhs_id < i
  | _ => True

/-- The shape conditions that `ChipData::new` is meant to enforce, written
from the specification: every periodic column fits under the trace height,
the local-variable groups match the declared counts, the trace segments
match the declared dimensions, and the quotient evaluations have length
num_quotient_evals times D. -/
def chipDataShapeOk {F EF : Type} (E : ExtField F EF) (chip : ChipMetadata F)
    (local_variables : List (List F)) (trace_evals : List (List (List EF)))
    (quotient_evals : List EF) (log_height : ℕ) : Prop :=
  (∀ column ∈ chip.periodic, column.length ≤ 2 ^ log_height) ∧
  local_variables.length = chip.num_local_variables.length ∧
  List.Forall₂ (fun vars size => vars.length = size) local_variables
    chip.num_local_variables ∧
  trace_evals.length = chip.trace_window_dimensions.length ∧
  List.Forall₂
    (fun segment_rows dim =>
      segment_rows.length = dim.height ∧ ∀ row ∈ segment_rows, row.length = dim.width)
    trace_evals chip.trace_window_dimensions ∧
  quotient_evals.length = chip.num_quotient_evals * E.D


/-- The per-constraint quotient term: the node evaluation times the inverse
zerofier evaluation. -/
def rlcTerm {EF : Type} [Field EF] (evals inverse_zerofier_evals : List EF)
    (constraint : Expression) : EF :=
  evals.getD constraint.node_id 0 *
    inverse_zerofier_evals.getD (constraint.zerofier_id.getD 0) 0

/-- Bounds check for one constraint against the evaluation lists. -/
def rlcInRange {EF : Type} (evals inverse_zerofier_evals : List EF)
    (constraint : Expression) : Bool :=
  decide (constraint.node_id < evals.length) &&
    constraint.zerofier_id.any fun z => decide (z < inverse_zerofier_evals.length)

/-- The pair of conditions one trace segment must satisfy. -/
def segmentOk {EF : Type} (segment_rows : List (List EF)) (dim : Dimensions) : Prop :=
  segment_rows.length = dim.height ∧ ∀ row ∈ segment_rows, row.length = dim.width

/-- Horner evaluation of a reversed coefficient list. -/
theorem horner_reverse {EF : Type} [Field EF] (z : EF) (l : List EF) :
    l.reverse.foldl (fun acc v => acc * z + v) 0 =
      ∑ i in Finset.range l.length, l.getD i 0 * z ^ i := by
  induction l with
  | nil => simp
  | cons v l ih =>
      rw [List.reverse_cons, List.foldl_append]
      simp only [List.foldl_cons, List.foldl_nil, ih, List.length_cons]
      rw [Finset.sum_range_succ']
      simp only [List.getD_cons_succ, List.getD_cons_zero, pow_zero, mul_one, pow_succ,
        Finset.sum_mul]
      ring_nf
      congr 1
      refine Finset.sum_congr rfl fun i _ => by ring

theorem chunksExactGo_length {α : Type} (k : ℕ) (hk : 0 < k) :
    ∀ (fuel : ℕ) (l : List α), l.length ≤ fuel →
      (chunksExactGo k fuel l).length = l.length / k := by
  intro fuel
  induction fuel with
  | zero =>
      intro l hl
      have h0 : l.length = 0 := Nat.le_zero.mp hl
      simp [chunksExactGo, h0, Nat.zero_div]
  | succ fuel ih =>
      intro l hl
      by_cases h : k ≤ l.length
      · simp only [chunksExactGo, if_pos (And.intro hk h), List.length_cons]
        have hdrop : (l.drop k).length = l.length - k := List.length_drop k l
        rw [ih _ (by omega), hdrop, Nat.div_eq_sub_div hk h]
      · simp only [chunksExactGo]
        rw [if_neg (fun hc => h hc.2)]
        have hz : l.length / k = 0 := Nat.div_eq_of_lt (by omega)
        simp [hz]

/-- Length of `chunks_exact k`. -/
theorem chunksExact_length {α : Type} (k : ℕ) (hk : 0 < k) (l : List α) :
    (chunksExact k l).length = l.length / k :=
  chunksExactGo_length k hk l.length l (le_refl _)

/-- Claim C5: the claimed quotient reconstructed by check_quotient, namely the
chunk-reversed Horner fold of the unflattened D-chunks of quotient_evals with
multiplier zeta to the power two-to-the-log_height, equals the direct
polynomial evaluation: the sum over i of the unflattened chunk i times that
multiplier to the power i; and quotient_evals of length t times D splits into
exactly t chunks. -/
theorem claim_C5 {F EF : Type} [Field EF] (E : ExtField F EF) (quotient_evals : List EF)
    (zeta : EF) (log_height t : ℕ) (hD : 0 < E.D)
    (hlen : quotient_evals.length = t * E.D) :
    (chunksExact E.D quotient_evals).length = t ∧
    claimedQuotient E quotient_evals (zeta ^ 2 ^ log_height) =
      ∑ i in Finset.range t,
        unflattenExtension E ((chunksExact E.D quotient_evals).getD i []) *
          (zeta ^ 2 ^ log_height) ^ i := by
  have hlen2 : (chunksExact E.D quotient_evals).length = t := by
    rw [chunksExact_length E.D hD, hlen, Nat.mul_div_cancel _ hD]
  refine ⟨hlen2, ?_⟩
  unfold claimedQuotient
  rw [horner_reverse, List.length_map, hlen2]
  refine Finset.sum_congr rfl fun i hi => ?_
  have hi2 : i < (chunksExact E.D quotient_evals).length := by
    rw [hlen2]; exact Finset.mem_range.mp hi
  have hmap : i < ((chunksExact E.D quotient_evals).map (unflattenExtension E)).length := by
    simpa using hi2
  rw [List.getD_eq_getElem _ _ hmap, List.getElem_map, ← List.getD_eq_getElem _ [] hi2]

/-- Witness for C5 at a concrete input. -/
theorem claim_C5_witness :
    (chunksExact extF5.D [(1 : F5), 2]).length = 2 ∧
    claimedQuotient extF5 [(1 : F5), 2] ((3 : F5) ^ 2 ^ 0) =
      ∑ i in Finset.range 2,
        unflattenExtension extF5 ((chunksExact extF5.D [(1 : F5), 2]).getD i []) *
          ((3 : F5) ^ 2 ^ 0) ^ i :=
  claim_C5 extF5 [1, 2] 3 0 2 (by decide) (by decide)

/-- Successful monadic fold is the pure fold. -/
theorem foldlM_option_eq_foldl {α β : Type} (f : β → α → Option β) (g : β → α → β)
    (l : List α) (h : ∀ a ∈ l, ∀ b, f b a = some (g b a)) :
    ∀ acc, l.foldlM f acc = some (l.foldl g acc) := by
  induction l with
  | nil => intro acc; rfl
  | cons x l ih =>
      intro acc
      rw [List.foldlM_cons, h x (List.mem_cons_self x l) acc]
      simp only [Option.bind_eq_bind, Option.some_bind]
      exact ih (fun a ha b => h a (List.mem_cons_of_mem x ha) b) (g acc x)

/-- Amended claim C3: the random linear combination computed by the reversed
fold is the sum over k of alpha to the k times the k-th constraint term, with
k indexing the constraints from the start: the first constraint receives the
coefficient alpha to the zero. -/
theorem claim_C3_amended {EF : Type} [Field EF] (constraints : List Expression)
    (evals inverse_zerofier_evals : List EF) (alpha : EF)
    (h : constraints.all (rlcInRange evals inverse_zerofier_evals) = true) :
    quotientRLC constraints evals inverse_zerofier_evals alpha =
      some (∑ k in Finset.range constraints.length,
        alpha ^ k * rlcTerm evals inverse_zerofier_evals (constraints.getD k ⟨0, none⟩)) := by
  have hmem := List.all_eq_true.mp h
  unfold quotientRLC
  rw [foldlM_option_eq_foldl _
      (fun acc c => acc * alpha + rlcTerm evals inverse_zerofier_evals c) _ ?_ 0]
  · congr 1
    rw [← List.foldl_map (rlcTerm evals inverse_zerofier_evals), List.map_reverse,
      horner_reverse, List.length_map]
    refine Finset.sum_congr rfl fun k hk => ?_
    have hk2 : k < constraints.length := Finset.mem_range.mp hk
    have hmapk : k < (constraints.map (rlcTerm evals inverse_zerofier_evals)).length := by
      simpa using hk2
    rw [List.getD_eq_getElem _ _ hmapk, List.getElem_map,
      ← List.getD_eq_getElem _ ⟨0, none⟩ hk2, mul_comm]
  · intro c hc b
    have hr := hmem c (List.mem_reverse.mp hc)
    unfold rlcInRange at hr
    simp only [Bool.and_eq_true, decide_eq_true_eq] at hr
    obtain ⟨hn, hz⟩ := hr
    match hzid : c.zerofier_id with
    | none => rw [hzid] at hz; simp [Option.any] at hz
    | some z =>
        rw [hzid] at hz
        simp only [Option.any, decide_eq_true_eq] at hz
        simp only [List.getElem?_eq_getElem hn, List.getElem?_eq_getElem hz,
          Option.bind_eq_bind, Option.some_bind, Option.pure_def]
        simp only [rlcTerm, hzid, Option.getD_some]
        rw [List.getD_eq_getElem _ _ hn, List.getD_eq_getElem _ _ hz]

/-- Counterexample to claim C3 as stated: with two constraints, evaluations
[1, 2], inverse zerofier [1] and alpha = 2 over F5, the computed combination
is 0, while the from-the-end indexing of the claim gives 4. -/
theorem claim_C3_counterexample :
    quotientRLC [⟨0, some 0⟩, ⟨1, some 0⟩] [(1 : F5), 2] [1] 2 ≠
      some (∑ k in Finset.range 2, (2 : F5) ^ k *
        rlcTerm [(1 : F5), 2] [1]
          (([⟨0, some 0⟩, ⟨1, some 0⟩] : List Expression).reverse.getD k ⟨0, none⟩)) := by
  decide

/-- Witness for the amended claim C3 at a concrete input. -/
theorem claim_C3_witness :
    quotientRLC [⟨0, some 0⟩, ⟨1, some 0⟩] [(1 : F5), 2] [1] 2 =
      some (∑ k in Finset.range 2, (2 : F5) ^ k *
        rlcTerm [(1 : F5), 2] [1]
          (([⟨0, some 0⟩, ⟨1, some 0⟩] : List Expression).getD k ⟨0, none⟩)) :=
  claim_C3_amended _ _ _ _ (by decide)

/-- The per-node test succeeds exactly on the topological invariant. -/
theorem nodeTopoOk_true_iff {F : Type} (i : ℕ) (node : Node F) :
    nodeTopoOk i node = true ↔ arithRefsLt i node := by
  cases node <;> simp [nodeTopoOk, arithRefsLt]

/-- The validation loop succeeds exactly when every node passes its test. -/
theorem newGo_ok_iff {F : Type} :
    ∀ (rest : List (Node F)) (i : ℕ),
      newGo i rest = .ok () ↔ ∀ j node, rest[j]? = some node → nodeTopoOk (i + j) node = true := by
  intro rest
  induction rest with
  | nil => intro i; simp [newGo]
  | cons node0 rest ih =>
      intro i
      by_cases h : nodeTopoOk i node0 = true
      · rw [newGo, if_pos h, ih]
        constructor
        · intro hall j nj hj
          cases j with
          | zero =>
              simp only [List.getElem?_cons_zero, Option.some.injEq] at hj
              subst hj
              simpa using h
          | succ j =>
              have hv := hall j nj (by simpa using hj)
              have heq : i + 1 + j = i + (j + 1) := by omega
              rw [heq] at hv
              exact hv
        · intro hall j nj hj
          have hv := hall (j + 1) nj (by simpa using hj)
          have heq : i + (j + 1) = i + 1 + j := by omega
          rw [heq] at hv
          exact hv
      · rw [newGo, if_neg h]
        constructor
        · intro hcon; exact absurd hcon (by simp)
        · intro hall
          exact absurd (hall 0 node0 (by simp)) (by simpa using h)

/-- The validation loop reports the first violating node. -/
theorem newGo_error {F : Type} :
    ∀ (rest : List (Node F)) (i j : ℕ) (node : Node F),
      rest[j]? = some node → nodeTopoOk (i + j) node = false →
      (∀ j2, j2 < j → ∀ n2, rest[j2]? = some n2 → nodeTopoOk (i + j2) n2 = true) →
      newGo i rest = .error (.InvalidReference (i + j)) := by
  intro rest
  induction rest with
  | nil => intro i j node hj _ _; simp at hj
  | cons node0 rest ih =>
      intro i j node hj hbad hpre
      cases j with
      | zero =>
          simp only [List.getElem?_cons_zero, Option.some.injEq] at hj
          subst hj
          rw [Nat.add_zero] at hbad ⊢
          rw [newGo, if_neg (by simp [hbad])]
      | succ j =>
          have h0 : nodeTopoOk i node0 = true := by
            have hv := hpre 0 (Nat.succ_pos j) node0 (by simp)
            simpa using hv
          rw [newGo, if_pos h0]
          have heq : i + (j + 1) = i + 1 + j := by omega
          rw [heq] at hbad ⊢
          refine ih (i + 1) j node (by simpa using hj) hbad ?_
          intro j2 hj2 n2 hn2
          have hv := hpre (j2 + 1) (by omega) n2 (by simpa using hn2)
          have heq2 : i + (j2 + 1) = i + 1 + j2 := by omega
          rw [heq2] at hv
          exact hv

/-- A monadic fold whose step appends one element grows by the list length. -/
theorem foldlM_append_length {α β : Type} (f : List β → α → Option (List β))
    (hf : ∀ acc a out, f acc a = some out → out.length = acc.length + 1) :
    ∀ (l : List α) (acc out : List β),
      l.foldlM f acc = some out → out.length = acc.length + l.length := by
  intro l
  induction l with
  | nil =>
      intro acc out h
      simp only [List.foldlM_nil, Option.pure_def, Option.some.injEq] at h
      subst h
      simp
  | cons x l ih =>
      intro acc out h
      rw [List.foldlM_cons] at h
      cases hfx : f acc x with
      | none => rw [hfx] at h; simp at h
      | some mid =>
          rw [hfx] at h
          simp only [Option.bind_eq_bind, Option.some_bind] at h
          have h1 := ih mid out h
          have h2 := hf acc x mid hfx
          rw [List.length_cons]
          omega

/-- The sequential evaluation produces one value per node. -/
theorem evalNodes_length {F EF : Type} [Field F] [Field EF] (E : ExtField F EF)
    (nodes : List (Node F)) (global_variables : List (List F))
    (local_variables : List (List (List F))) (trace_evals : List (List (List EF)))
    (periodic_evals : List EF) (out : List EF)
    (h : evalNodes E nodes global_variables local_variables trace_evals periodic_evals =
      some out) : out.length = nodes.length := by
  have hstep : ∀ (acc : List EF) (a : Node F) (o : List EF),
      (a.eval E acc global_variables local_variables trace_evals periodic_evals).map
          (fun v => acc ++ [v]) = some o → o.length = acc.length + 1 := by
    intro acc a o ho
    cases he : a.eval E acc global_variables local_variables trace_evals periodic_evals with
    | none => rw [he] at ho; simp at ho
    | some v =>
        rw [he] at ho
        simp only [Option.map_some', Option.some.injEq] at ho
        subst ho
        simp
  have hout := foldlM_append_length _ hstep nodes [] out h
  simpa using hout

/-- Claim C8: NodesInfo::new fails with InvalidReference at the first
arithmetic node referencing itself or a later node; and on every node list
it accepts, an arithmetic node in the sequential evaluation loop only reads
partial-evaluation entries at indices strictly below its own index, so its
evaluation cannot fail on the partial evaluation list. -/
theorem claim_C8 {F EF : Type} [Field F] [Field EF] (E : ExtField F EF)
    (nodes : List (Node F)) :
    (∀ i node, nodes[i]? = some node → nodeTopoOk i node = false →
        (∀ j, j < i → ∀ nj, nodes[j]? = some nj → nodeTopoOk j nj = true) →
        NodesInfo.new nodes = .error (.InvalidReference i)) ∧
    (NodesInfo.new nodes = .ok () →
      ∀ (global_variables : List (List F)) (local_variables : List (List (List F)))
        (trace_evals : List (List (List EF))) (periodic_evals : List EF) (i : ℕ)
        (prev_evals : List EF) (node : Node F),
        evalNodes E (nodes.take i) global_variables local_variables trace_evals
            periodic_evals = some prev_evals →
        nodes[i]? = some node → isArithNode node = true →
        arithRefsLt prev_evals.length node ∧
        (node.eval E prev_evals global_variables local_variables trace_evals
            periodic_evals).isSome = true) := by
  constructor
  · intro i node hi hbad hpre
    have herr := newGo_error nodes 0 i node (by simpa using hi) (by simpa using hbad) ?_
    · simpa [NodesInfo.new] using herr
    · intro j2 hj2 n2 hn2
      simpa using hpre j2 hj2 n2 hn2
  · intro hok global_variables local_variables trace_evals periodic_evals i prev_evals node
      hev hi harith
    have htopo := (newGo_ok_iff nodes 0).mp hok i node hi
    rw [Nat.zero_add] at htopo
    have hlen : prev_evals.length = i := by
      have h1 := evalNodes_length E _ global_variables local_variables trace_evals
        periodic_evals prev_evals hev
      have h2 : i < nodes.length := (List.getElem?_eq_some.mp hi).1
      rw [h1, List.length_take]
      omega
    have hrefs : arithRefsLt prev_evals.length node := by
      rw [hlen]
      exact (nodeTopoOk_true_iff i node).mp htopo
    refine ⟨hrefs, ?_⟩
    cases node with
    | Add lhs_id rhs_id =>
        obtain ⟨hl, hr⟩ := hrefs
        simp [Node.eval, List.getElem?_eq_getElem hl, List.getElem?_eq_getElem hr]
    | Sub lhs_id rhs_id =>
        obtain ⟨hl, hr⟩ := hrefs
        simp [Node.eval, List.getElem?_eq_getElem hl, List.getElem?_eq_getElem hr]
    | Mul lhs_id rhs_id =>
        obtain ⟨hl, hr⟩ := hrefs
        simp [Node.eval, List.getElem?_eq_getElem hl, List.getElem?_eq_getElem hr]
    | Constant c => simp [isArithNode] at harith
    | Trace a b c d => simp [isArithNode] at harith
    | Var a b c d => simp [isArithNode] at harith
    | Periodic a => simp [isArithNode] at harith

/-- Witness for C8: a concrete rejection at the first bad index, and a
concrete arithmetic node whose evaluation succeeds on the partial list. -/
theorem claim_C8_witness :
    NodesInfo.new (F := F5) [.Constant 0, .Add 1 0] = .error (.InvalidReference 1) ∧
    arithRefsLt ([(0 : F5), 0].length) (Node.Add (F := F5) 0 1) ∧
    ((Node.Add 0 1).eval extF5 [(0 : F5), 0] [] [] [] []).isSome = true := by
  refine ⟨?_, ?_⟩
  · refine (claim_C8 extF5 [.Constant 0, .Add 1 0]).1 1 (.Add 1 0) rfl (by decide) ?_
    intro j hj nj hget
    interval_cases j
    simp only [List.getElem?_cons_zero, Option.some.injEq] at hget
    subst hget
    rfl
  · exact (claim_C8 extF5 [.Constant 0, .Constant 0, .Add 0 1]).2 rfl [] [] [] [] 2
      [0, 0] (.Add 0 1) rfl rfl rfl

/-- The degrees loop outputs one entry per node, after the accumulator. -/
theorem getDegreesGo_length {F : Type} :
    ∀ (rest : List (Node F)) (acc : List ℕ),
      (getDegreesGo acc rest).length = acc.length + rest.length := by
  intro rest
  induction rest with
  | nil => intro acc; simp [getDegreesGo]
  | cons node rest ih =>
      intro acc
      rw [getDegreesGo, ih]
      simp only [List.length_append, List.length_cons, List.length_nil]
      omega

/-- The degrees loop never rewrites already-computed entries. -/
theorem getDegreesGo_stable {F : Type} :
    ∀ (rest : List (Node F)) (acc : List ℕ) (i : ℕ), i < acc.length →
      (getDegreesGo acc rest).getD i 0 = acc.getD i 0 := by
  intro rest
  induction rest with
  | nil => intro acc i _; rfl
  | cons node rest ih =>
      intro acc i h
      have hlt : i < (acc ++ [nodeDegree acc node]).length := by
        simp only [List.length_append, List.length_cons, List.length_nil]
        omega
      rw [getDegreesGo, ih _ _ hlt]
      exact List.getD_append _ _ _ _ h

/-- The degree rule only depends on entries below the reference bound. -/
theorem nodeDegree_congr {F : Type} (node : Node F) (k : ℕ) (d1 d2 : List ℕ)
    (hrefs : arithRefsLt k node) (hagree : ∀ i, i < k → d1.getD i 0 = d2.getD i 0) :
    nodeDegree d1 node = nodeDegree d2 node := by
  cases node with
  | Constant c => rfl
  | Trace a b c d => rfl
  | Var a b c d => rfl
  | Periodic a => rfl
  | Add lhs_id rhs_id =>
      obtain ⟨hl, hr⟩ := hrefs
      simp only [nodeDegree]
      rw [hagree _ hl, hagree _ hr]
  | Sub lhs_id rhs_id =>
      obtain ⟨hl, hr⟩ := hrefs
      simp only [nodeDegree]
      rw [hagree _ hl, hagree _ hr]
  | Mul lhs_id rhs_id =>
      obtain ⟨hl, hr⟩ := hrefs
      simp only [nodeDegree]
      rw [hagree _ hl, hagree _ hr]

/-- Appending one entry places it at the old length. -/
theorem getD_append_length (acc : List ℕ) (d : ℕ) : (acc ++ [d]).getD acc.length 0 = d := by
  rw [List.getD_eq_getElem _ _ (by simp)]
  rw [List.getElem_append_right (le_refl _)]
  simp

/-- Under the topological invariant, every entry produced by the degrees
loop satisfies the degree rule read off the full output list. -/
theorem getDegreesGo_spec {F : Type} :
    ∀ (rest : List (Node F)) (acc : List ℕ),
      (∀ j node, rest[j]? = some node → arithRefsLt (acc.length + j) node) →
      ∀ j node, rest[j]? = some node →
        (getDegreesGo acc rest).getD (acc.length + j) 0 =
          nodeDegree (getDegreesGo acc rest) node := by
  intro rest
  induction rest with
  | nil => intro acc _ j node hj; simp at hj
  | cons node0 rest ih =>
      intro acc htopo j node hj
      rw [getDegreesGo]
      cases j with
      | zero =>
          simp only [List.getElem?_cons_zero, Option.some.injEq] at hj
          subst hj
          rw [Nat.add_zero]
          have hsta : (getDegreesGo (acc ++ [nodeDegree acc node0]) rest).getD acc.length 0 =
              (acc ++ [nodeDegree acc node0]).getD acc.length 0 :=
            getDegreesGo_stable rest _ _ (by simp)
          rw [hsta, getD_append_length]
          refine nodeDegree_congr node0 acc.length acc _ ?_ ?_
          · have hv := htopo 0 node0 (by simp)
            rw [Nat.add_zero] at hv
            exact hv
          · intro i hi
            rw [getDegreesGo_stable rest _ _ (by simp only [List.length_append,
              List.length_cons, List.length_nil]; omega)]
            rw [List.getD_append _ _ _ _ hi]
      | succ j =>
          have h2 : ∀ j2 n2, rest[j2]? = some n2 →
              arithRefsLt ((acc ++ [nodeDegree acc node0]).length + j2) n2 := by
            intro j2 n2 hn2
            have hv := htopo (j2 + 1) n2 (by simpa using hn2)
            have heq : acc.length + (j2 + 1) = (acc ++ [nodeDegree acc node0]).length + j2 := by
              simp only [List.length_append, List.length_cons, List.length_nil]
              omega
            rw [heq] at hv
            exact hv
          have hv := ih (acc ++ [nodeDegree acc node0]) h2 j node (by simpa using hj)
          have heq : (acc ++ [nodeDegree acc node0]).length + j = acc.length + (j + 1) := by
            simp only [List.length_append, List.length_cons, List.length_nil]
            omega
          rw [heq] at hv
          exact hv

/-- Claim C6: on a node list satisfying the topological invariant,
get_degrees returns one degree per node, computed by the rules: 0 for
Constant and Var, 1 for Trace and Periodic, max of the operand degrees for
Add and Sub, and the sum of the operand degrees for Mul. -/
theorem claim_C6 {F : Type} (nodes : List (Node F)) (htopo : NodesInfo.new nodes = .ok ()) :
    (getDegrees nodes).length = nodes.length ∧
    ∀ i node, nodes[i]? = some node →
      (getDegrees nodes).getD i 0 =
        match node with
        | .Constant _ => 0
        | .Var _ _ _ _ => 0
        | .Trace _ _ _ _ => 1
        | .Periodic _ => 1
        | .Add lhs_id rhs_id =>
            max ((getDegrees nodes).getD lhs_id 0) ((getDegrees nodes).getD rhs_id 0)
        | .Sub lhs_id rhs_id =>
            max ((getDegrees nodes).getD lhs_id 0) ((getDegrees nodes).getD rhs_id 0)
        | .Mul lhs_id rhs_id =>
            (getDegrees nodes).getD lhs_id 0 + (getDegrees nodes).getD rhs_id 0 := by
  constructor
  · have hv := getDegreesGo_length nodes ([] : List ℕ)
    simpa [getDegrees] using hv
  · intro i node hi
    have hrefs : ∀ j nj, nodes[j]? = some nj → arithRefsLt (([] : List ℕ).length + j) nj := by
      intro j nj hj
      have hv := (newGo_ok_iff nodes 0).mp htopo j nj hj
      rw [Nat.zero_add] at hv
      simpa using (nodeTopoOk_true_iff j nj).mp hv
    have hspec := getDegreesGo_spec nodes [] hrefs i node hi
    simp only [List.length_nil, Nat.zero_add] at hspec
    rw [getDegrees]
    cases node <;> simpa [nodeDegree, getDegrees] using hspec

/-- Witness for C6 at a concrete node list. -/
theorem claim_C6_witness :
    (getDegrees [Node.Constant (0 : F5), .Trace 0 0 0 .Base, .Add 0 1, .Mul 2 2]).getD 3 0 =
      (getDegrees [Node.Constant (0 : F5), .Trace 0 0 0 .Base, .Add 0 1, .Mul 2 2]).getD 2 0 +
        (getDegrees [Node.Constant (0 : F5), .Trace 0 0 0 .Base, .Add 0 1, .Mul 2 2]).getD 2 0 :=
  (claim_C6 [Node.Constant (0 : F5), .Trace 0 0 0 .Base, .Add 0 1, .Mul 2 2] (by rfl)).2 3
    (.Mul 2 2) rfl

/-- The doubling loop preserves being a power of two. -/
theorem nextPowerOfTwoGo_pow2 :
    ∀ (fuel n power : ℕ), (∃ k, power = 2 ^ k) →
      ∃ k, nextPowerOfTwoGo n fuel power = 2 ^ k := by
  intro fuel
  induction fuel with
  | zero => intro n power h; exact h
  | succ fuel ih =>
      intro n power h
      rw [nextPowerOfTwoGo]
      by_cases hlt : power < n
      · rw [if_pos hlt]
        obtain ⟨k, hk⟩ := h
        exact ih n (power * 2) ⟨k + 1, by rw [hk]; ring⟩
      · rw [if_neg hlt]
        exact h

/-- Claim C7: num_quotient_evals equals next_power_of_two of
(max(2, max_constraint_degree) - 1); it is a power of two and at least 1;
a chip with max_constraint_degree at most 1 has num_quotient_evals 1, and
so does a chip with an empty constraint list. -/
theorem claim_C7 {F : Type} (chip : ChipMetadata F) :
    chip.num_quotient_evals = nextPowerOfTwo (max 2 chip.max_constraint_degree - 1) ∧
    (∃ k, chip.num_quotient_evals = 2 ^ k) ∧
    1 ≤ chip.num_quotient_evals ∧
    (chip.max_constraint_degree ≤ 1 → chip.num_quotient_evals = 1) ∧
    (chip.constraints = [] → chip.max_constraint_degree = 0 ∧ chip.num_quotient_evals = 1) := by
  have h2 : ∃ k, chip.num_quotient_evals = 2 ^ k := by
    rw [ChipMetadata.num_quotient_evals, nextPowerOfTwo]
    exact nextPowerOfTwoGo_pow2 _ _ 1 ⟨0, rfl⟩
  refine ⟨by rw [ChipMetadata.num_quotient_evals, Nat.max_comm], h2, ?_, ?_, ?_⟩
  · obtain ⟨k, hk⟩ := h2
    rw [hk]
    exact Nat.one_le_two_pow
  · intro hle
    rw [ChipMetadata.num_quotient_evals, Nat.max_eq_right (by omega)]
    decide
  · intro hemp
    have hmcd : chip.max_constraint_degree = 0 := by
      rw [ChipMetadata.max_constraint_degree, hemp]
      rfl
    refine ⟨hmcd, ?_⟩
    rw [ChipMetadata.num_quotient_evals, hmcd]
    decide

/-- Witness for C7: the concrete validated chip with one degree-0 constraint. -/
theorem claim_C7_witness :
    chipNoZf.max_constraint_degree ≤ 1 ∧ chipNoZf.num_quotient_evals = 1 :=
  ⟨by decide, (claim_C7 chipNoZf).2.2.2.1 (by decide)⟩

/-- Claim C1 evaluated on a failing input: build_chip accepts the raw chip
whose single constraint has no zerofier reference (the Rust check only
rejects a present, out-of-range zerofier index), while build_machine does
reject a machine constraint that carries a zerofier reference. -/
theorem claim_C1 :
    buildChip extF5 rawNoZf = .ok chipNoZf ∧
    buildMachine extF5 rawMachineWithZf = .error (.Constraint 0) := by
  constructor
  · decide
  · decide

/-- Claim C2 evaluated on a failing input: over F5 the zerofier variant
G(First 1) evaluated at x = 2, g = 3, n = 8 returns 2 (namely x to the
power 1), not the lifted g to the power 1 (which is 3), and the result
changes with x, so it is not independent of x. -/
theorem claim_C2 :
    (ZerofierExpression.G (.First 1)).eval extF5 2 3 8 = some 2 ∧
    extF5.fromBase ((3 : F5) ^ (Exponent.First 1).power 8) = 3 ∧
    ((2 : F5) = 3 → False) ∧
    (ZerofierExpression.G (.First 1)).eval extF5 1 3 8 = some 1 := by
  refine ⟨by decide, by decide, by decide, by decide⟩

/-- Claim C4: there is a raw chip accepted by build_chip in which a
constraint has no zerofier reference; on chip data built from the resulting
chip, check_quotient evaluates the nodes successfully, reaches the unwrap
of the missing zerofier index inside the combination fold, and panics
(modelled as none) instead of returning a DataError. -/
theorem claim_C4 :
    buildChip extF5 rawNoZf = .ok chipNoZf ∧
    ChipData.new extF5 chipNoZf [] [] [0] 0 = .ok ⟨chipNoZf, [], [], [0], 0⟩ ∧
    evalNodes extF5 chipNoZf.nodes [] [[]] [] [] = some [0] ∧
    quotientRLC chipNoZf.constraints [(0 : F5)] [] 0 = none ∧
    (ChipData.mk chipNoZf [] [] [0] 0).checkQuotient extF5 [] 0 0 = none := by
  refine ⟨by decide, by decide, by decide, by decide, by decide⟩

theorem except_bind_ok {e a b : Type} (x : a) (f : a → Except e b) :
    (Except.ok x : Except e a) >>= f = f x := rfl

theorem except_bind_error {e a b : Type} (err : e) (f : a → Except e b) :
    (Except.error err : Except e a) >>= f = .error err := rfl

theorem checkMinHeightGo_ok_iff {F : Type} (height : ℕ) :
    ∀ (cols : List (List F)) (i : ℕ),
      checkMinHeightGo height i cols = .ok () ↔ ∀ col ∈ cols, col.length ≤ height := by
  intro cols
  induction cols with
  | nil => intro i; simp [checkMinHeightGo]
  | cons col rest ih =>
      intro i
      rw [checkMinHeightGo]
      by_cases h : height < col.length
      · rw [if_pos h]
        simp only [List.mem_cons]
        constructor
        · intro hcon; exact absurd hcon (by simp)
        · intro hall
          exact absurd (hall col (Or.inl rfl)) (by omega)
      · rw [if_neg h]
        rw [ih]
        simp only [List.mem_cons]
        constructor
        · intro hall c hc
          rcases hc with rfl | hc
          · omega
          · exact hall c hc
        · intro hall c hc
          exact hall c (Or.inr hc)

theorem checkMinHeightGo_error {F : Type} (height : ℕ) :
    ∀ (cols : List (List F)) (i c : ℕ) (col : List F),
      cols[c]? = some col → height < col.length →
      (∀ j, j < c → ∀ cj, cols[j]? = some cj → cj.length ≤ height) →
      checkMinHeightGo height i cols = .error (.MinHeight (i + c) col.length height) := by
  intro cols
  induction cols with
  | nil => intro i c col hc _ _; simp at hc
  | cons col0 rest ih =>
      intro i c col hc hbad hpre
      cases c with
      | zero =>
          simp only [List.getElem?_cons_zero, Option.some.injEq] at hc
          subst hc
          rw [Nat.add_zero, checkMinHeightGo, if_pos hbad]
      | succ c =>
          have h0 : col0.length ≤ height := hpre 0 (Nat.succ_pos c) col0 (by simp)
          rw [checkMinHeightGo, if_neg (by omega)]
          have heq : i + (c + 1) = i + 1 + c := by omega
          rw [heq]
          refine ih (i + 1) c col (by simpa using hc) hbad ?_
          intro j hj cj hcj
          exact hpre (j + 1) (by omega) cj (by simpa using hcj)

theorem checkLocalVarsGo_ok_iff {F : Type} :
    ∀ (lv : List (List F)) (ne : List ℕ) (i : ℕ), lv.length = ne.length →
      (checkLocalVarsGo i lv ne = .ok () ↔
        List.Forall₂ (fun vars size => vars.length = size) lv ne) := by
  intro lv
  induction lv with
  | nil =>
      intro ne i hlen
      have : ne = [] := List.eq_nil_of_length_eq_zero hlen.symm
      subst this
      simp [checkLocalVarsGo]
  | cons vars lv ih =>
      intro ne i hlen
      cases ne with
      | nil => simp at hlen
      | cons expected ne =>
          rw [checkLocalVarsGo]
          by_cases h : vars.length ≠ expected
          · rw [if_pos h]
            constructor
            · intro hcon; exact absurd hcon (by simp)
            · intro hall
              exact absurd (List.forall₂_cons.mp hall).1 h
          · rw [if_neg h]
            rw [ih ne (i + 1) (by simpa using hlen)]
            rw [List.forall₂_cons]
            push_neg at h
            simp [h]

theorem checkLocalVarsGo_error {F : Type} :
    ∀ (lv : List (List F)) (ne : List ℕ) (i g : ℕ) (vars : List F) (expected : ℕ),
      lv[g]? = some vars → ne[g]? = some expected → vars.length ≠ expected →
      (∀ j, j < g → ∀ vj ej, lv[j]? = some vj → ne[j]? = some ej → vj.length = ej) →
      checkLocalVarsGo i lv ne = .error (.NumLocalVariables (i + g) vars.length expected) := by
  intro lv
  induction lv with
  | nil => intro ne i g vars expected hv _ _ _; simp at hv
  | cons vars0 lv ih =>
      intro ne i g vars expected hv he hbad hpre
      cases ne with
      | nil => simp at he
      | cons e0 ne =>
          cases g with
          | zero =>
              simp only [List.getElem?_cons_zero, Option.some.injEq] at hv he
              subst hv
              subst he
              rw [Nat.add_zero, checkLocalVarsGo, if_pos hbad]
          | succ g =>
              have h0 : vars0.length = e0 := hpre 0 (Nat.succ_pos g) vars0 e0 (by simp) (by simp)
              rw [checkLocalVarsGo, if_neg (by omega)]
              have heq : i + (g + 1) = i + 1 + g := by omega
              rw [heq]
              refine ih ne (i + 1) g vars expected (by simpa using hv) (by simpa using he)
                hbad ?_
              intro j hj vj ej hvj hej
              exact hpre (j + 1) (by omega) vj ej (by simpa using hvj) (by simpa using hej)

theorem checkRowsGo_ok_iff {EF : Type} (segment_index width : ℕ) :
    ∀ (rows : List (List EF)) (i : ℕ),
      checkRowsGo segment_index width i rows = .ok () ↔ ∀ row ∈ rows, row.length = width := by
  intro rows
  induction rows with
  | nil => intro i; simp [checkRowsGo]
  | cons row rest ih =>
      intro i
      rw [checkRowsGo]
      by_cases h : row.length ≠ width
      · rw [if_pos h]
        constructor
        · intro hcon; exact absurd hcon (by simp)
        · intro hall; exact absurd (hall row (by simp)) h
      · rw [if_neg h]
        rw [ih]
        push_neg at h
        simp only [List.mem_cons]
        constructor
        · intro hall r hr
          rcases hr with rfl | hr
          · exact h
          · exact hall r hr
        · intro hall r hr
          exact hall r (Or.inr hr)

theorem checkRowsGo_error {EF : Type} (segment_index width : ℕ) :
    ∀ (rows : List (List EF)) (i r : ℕ) (row : List EF),
      rows[r]? = some row → row.length ≠ width →
      (∀ j, j < r → ∀ rj, rows[j]? = some rj → rj.length = width) →
      checkRowsGo segment_index width i rows =
        .error (.SegmentRowWidth segment_index (i + r) row.length width) := by
  intro rows
  induction rows with
  | nil => intro i r row hr _ _; simp at hr
  | cons row0 rest ih =>
      intro i r row hr hbad hpre
      cases r with
      | zero =>
          simp only [List.getElem?_cons_zero, Option.some.injEq] at hr
          subst hr
          rw [Nat.add_zero, checkRowsGo, if_pos hbad]
      | succ r =>
          have h0 : row0.length = width := hpre 0 (Nat.succ_pos r) row0 (by simp)
          rw [checkRowsGo, if_neg (by omega)]
          have heq : i + (r + 1) = i + 1 + r := by omega
          rw [heq]
          refine ih (i + 1) r row (by simpa using hr) hbad ?_
          intro j hj rj hrj
          exact hpre (j + 1) (by omega) rj (by simpa using hrj)

theorem checkSegmentsGo_ok_iff {EF : Type} :
    ∀ (te : List (List (List EF))) (dims : List Dimensions) (i : ℕ),
      te.length = dims.length →
      (checkSegmentsGo i te dims = .ok () ↔ List.Forall₂ segmentOk te dims) := by
  intro te
  induction te with
  | nil =>
      intro dims i hlen
      have : dims = [] := List.eq_nil_of_length_eq_zero hlen.symm
      subst this
      simp [checkSegmentsGo]
  | cons seg te ih =>
      intro dims i hlen
      cases dims with
      | nil => simp at hlen
      | cons dim dims =>
          rw [checkSegmentsGo]
          by_cases h : seg.length ≠ dim.height
          · rw [if_pos h]
            constructor
            · intro hcon; exact absurd hcon (by simp)
            · intro hall
              exact absurd (List.forall₂_cons.mp hall).1.1 h
          · rw [if_neg h]
            push_neg at h
            cases hrows : checkRowsGo i dim.width 0 seg with
            | error e =>
                rw [except_bind_error]
                constructor
                · intro hcon; exact absurd hcon (by simp)
                · intro hall
                  have hr := (List.forall₂_cons.mp hall).1.2
                  have := (checkRowsGo_ok_iff i dim.width seg 0).mpr hr
                  rw [hrows] at this
                  exact absurd this (by simp)
            | ok u =>
                cases u
                rw [except_bind_ok]
                rw [ih dims (i + 1) (by simpa using hlen)]
                rw [List.forall₂_cons]
                have hr := (checkRowsGo_ok_iff i dim.width seg 0).mp hrows
                constructor
                · intro hall
                  exact ⟨⟨h, hr⟩, hall⟩
                · intro hall
                  exact hall.2

theorem checkSegmentsGo_height_error {EF : Type} :
    ∀ (te : List (List (List EF))) (dims : List Dimensions) (i s : ℕ)
      (seg : List (List EF)) (dim : Dimensions),
      te[s]? = some seg → dims[s]? = some dim → seg.length ≠ dim.height →
      (∀ j, j < s → ∀ sj dj, te[j]? = some sj → dims[j]? = some dj → segmentOk sj dj) →
      checkSegmentsGo i te dims = .error (.SegmentHeight (i + s) seg.length dim.height) := by
  intro te
  induction te with
  | nil => intro dims i s seg dim hs _ _ _; simp at hs
  | cons seg0 te ih =>
      intro dims i s seg dim hs hd hbad hpre
      cases dims with
      | nil => simp at hd
      | cons dim0 dims =>
          cases s with
          | zero =>
              simp only [List.getElem?_cons_zero, Option.some.injEq] at hs hd
              subst hs
              subst hd
              rw [Nat.add_zero, checkSegmentsGo, if_pos hbad]
          | succ s =>
              have h0 : segmentOk seg0 dim0 := hpre 0 (Nat.succ_pos s) seg0 dim0 (by simp) (by simp)
              rw [checkSegmentsGo, if_neg (by simp [h0.1])]
              have hrows : checkRowsGo i dim0.width 0 seg0 = .ok () :=
                (checkRowsGo_ok_iff i dim0.width seg0 0).mpr h0.2
              rw [hrows, except_bind_ok]
              have heq : i + (s + 1) = i + 1 + s := by omega
              rw [heq]
              refine ih dims (i + 1) s seg dim (by simpa using hs) (by simpa using hd) hbad ?_
              intro j hj sj dj hsj hdj
              exact hpre (j + 1) (by omega) sj dj (by simpa using hsj) (by simpa using hdj)

theorem checkSegmentsGo_row_error {EF : Type} :
    ∀ (te : List (List (List EF))) (dims : List Dimensions) (i s : ℕ)
      (seg : List (List EF)) (dim : Dimensions) (r : ℕ) (row : List EF),
      te[s]? = some seg → dims[s]? = some dim → seg.length = dim.height →
      seg[r]? = some row → row.length ≠ dim.width →
      (∀ j, j < r → ∀ rj, seg[j]? = some rj → rj.length = dim.width) →
      (∀ j, j < s → ∀ sj dj, te[j]? = some sj → dims[j]? = some dj → segmentOk sj dj) →
      checkSegmentsGo i te dims =
        .error (.SegmentRowWidth (i + s) r row.length dim.width) := by
  intro te
  induction te with
  | nil => intro dims i s seg dim r row hs; simp at hs
  | cons seg0 te ih =>
      intro dims i s seg dim r row hs hd hheight hr hbad hrpre hpre
      cases dims with
      | nil => simp at hd
      | cons dim0 dims =>
          cases s with
          | zero =>
              simp only [List.getElem?_cons_zero, Option.some.injEq] at hs hd
              subst hs
              subst hd
              rw [checkSegmentsGo, if_neg (by simp [hheight])]
              have hrows := checkRowsGo_error i dim0.width seg0 0 r row hr hbad hrpre
              rw [Nat.zero_add] at hrows
              rw [hrows, except_bind_error, Nat.add_zero]
          | succ s =>
              have h0 : segmentOk seg0 dim0 := hpre 0 (Nat.succ_pos s) seg0 dim0 (by simp) (by simp)
              rw [checkSegmentsGo, if_neg (by simp [h0.1])]
              have hrows : checkRowsGo i dim0.width 0 seg0 = .ok () :=
                (checkRowsGo_ok_iff i dim0.width seg0 0).mpr h0.2
              rw [hrows, except_bind_ok]
              have heq : i + (s + 1) = i + 1 + s := by omega
              rw [heq]
              refine ih dims (i + 1) s seg dim r row (by simpa using hs) (by simpa using hd)
                hheight hr hbad hrpre ?_
              intro j hj sj dj hsj hdj
              exact hpre (j + 1) (by omega) sj dj (by simpa using hsj) (by simpa using hdj)

theorem except_dot_bind_ok {e a b : Type} (x : a) (f : a → Except e b) :
    (Except.ok x : Except e a).bind f = f x := rfl

theorem except_dot_bind_error {e a b : Type} (err : e) (f : a → Except e b) :
    (Except.error err : Except e a).bind f = .error err := rfl

theorem chipDataNew_ok_of_shape {F EF : Type} (E : ExtField F EF) (chip : ChipMetadata F)
    (local_variables : List (List F)) (trace_evals : List (List (List EF)))
    (quotient_evals : List EF) (log_height : ℕ)
    (h : chipDataShapeOk E chip local_variables trace_evals quotient_evals log_height) :
    ChipData.new E chip local_variables trace_evals quotient_evals log_height =
      .ok ⟨chip, local_variables, trace_evals, quotient_evals, log_height⟩ := by
  obtain ⟨hper, hlvn, hlv, hten, hte, hqe⟩ := h
  unfold ChipData.new
  simp only [(checkMinHeightGo_ok_iff _ _ _).mpr hper, except_dot_bind_ok,
    (checkLocalVarsGo_ok_iff _ _ _ hlvn).mpr hlv,
    (checkSegmentsGo_ok_iff _ _ _ hten).mpr hte]
  rw [if_neg (fun hc => hc hlvn), if_neg (fun hc => hc hten), if_neg (fun hc => hc hqe)]

theorem chipDataNew_ok_iff_shape {F EF : Type} (E : ExtField F EF) (chip : ChipMetadata F)
    (local_variables : List (List F)) (trace_evals : List (List (List EF)))
    (quotient_evals : List EF) (log_height : ℕ) :
    (∃ d, ChipData.new E chip local_variables trace_evals quotient_evals log_height = .ok d) ↔
      chipDataShapeOk E chip local_variables trace_evals quotient_evals log_height := by
  constructor
  · rintro ⟨d, hd⟩
    unfold ChipData.new at hd
    cases h1 : checkMinHeightGo (2 ^ log_height) 0 chip.periodic with
    | error e =>
        simp only [h1, except_dot_bind_error] at hd
        exact absurd hd (by simp)
    | ok u =>
        cases u
        simp only [h1, except_dot_bind_ok] at hd
        by_cases h2 : local_variables.length ≠ chip.num_local_variables.length
        · rw [if_pos h2] at hd
          exact absurd hd (by simp)
        · rw [if_neg h2] at hd
          push_neg at h2
          cases h3 : checkLocalVarsGo 0 local_variables chip.num_local_variables with
          | error e =>
        simp only [h3, except_dot_bind_error] at hd
        exact absurd hd (by simp)
          | ok u =>
              cases u
              simp only [h3, except_dot_bind_ok] at hd
              by_cases h4 : trace_evals.length ≠ chip.trace_window_dimensions.length
              · rw [if_pos h4] at hd
                exact absurd hd (by simp)
              · rw [if_neg h4] at hd
                push_neg at h4
                cases h5 : checkSegmentsGo 0 trace_evals chip.trace_window_dimensions with
                | error e =>
        simp only [h5, except_dot_bind_error] at hd
        exact absurd hd (by simp)
                | ok u =>
                    cases u
                    simp only [h5, except_dot_bind_ok] at hd
                    by_cases h6 : quotient_evals.length ≠ chip.num_quotient_evals * E.D
                    · rw [if_pos h6] at hd
                      exact absurd hd (by simp)
                    · push_neg at h6
                      exact ⟨(checkMinHeightGo_ok_iff _ _ _).mp h1, h2,
                        (checkLocalVarsGo_ok_iff _ _ _ h2).mp h3, h4,
                        (checkSegmentsGo_ok_iff _ _ _ h4).mp h5, h6⟩
  · intro h
    exact ⟨_, chipDataNew_ok_of_shape E chip local_variables trace_evals quotient_evals
      log_height h⟩

/-- Claim C9: ChipData::new accepts exactly when every declared dimension
matches (and then returns the data as given), and each first mismatch is
rejected with the corresponding DataError variant: MinHeight for an
oversized periodic column, NumLocalVariableGroups and NumLocalVariables for
the local-variable shape, NumTraces, SegmentHeight and SegmentRowWidth for
the trace shape, and NumQuotientEvals for the quotient-evaluation length. -/
theorem claim_C9 {F EF : Type} (E : ExtField F EF) (chip : ChipMetadata F)
    (local_variables : List (List F)) (trace_evals : List (List (List EF)))
    (quotient_evals : List EF) (log_height : ℕ) :
    ((∃ d, ChipData.new E chip local_variables trace_evals quotient_evals log_height =
        .ok d) ↔
      chipDataShapeOk E chip local_variables trace_evals quotient_evals log_height) ∧
    (chipDataShapeOk E chip local_variables trace_evals quotient_evals log_height →
      ChipData.new E chip local_variables trace_evals quotient_evals log_height =
        .ok ⟨chip, local_variables, trace_evals, quotient_evals, log_height⟩) ∧
    (∀ c col, chip.periodic[c]? = some col → 2 ^ log_height < col.length →
      (∀ j, j < c → ∀ cj, chip.periodic[j]? = some cj → cj.length ≤ 2 ^ log_height) →
      ChipData.new E chip local_variables trace_evals quotient_evals log_height =
        .error (.MinHeight c col.length (2 ^ log_height))) ∧
    ((∀ column ∈ chip.periodic, column.length ≤ 2 ^ log_height) →
      local_variables.length ≠ chip.num_local_variables.length →
      ChipData.new E chip local_variables trace_evals quotient_evals log_height =
        .error (.NumLocalVariableGroups local_variables.length
          chip.num_local_variables.length)) ∧
    ((∀ column ∈ chip.periodic, column.length ≤ 2 ^ log_height) →
      local_variables.length = chip.num_local_variables.length →
      ∀ g vars expected, local_variables[g]? = some vars →
        chip.num_local_variables[g]? = some expected → vars.length ≠ expected →
        (∀ j, j < g → ∀ vj ej, local_variables[j]? = some vj →
          chip.num_local_variables[j]? = some ej → vj.length = ej) →
        ChipData.new E chip local_variables trace_evals quotient_evals log_height =
          .error (.NumLocalVariables g vars.length expected)) ∧
    ((∀ column ∈ chip.periodic, column.length ≤ 2 ^ log_height) →
      local_variables.length = chip.num_local_variables.length →
      List.Forall₂ (fun vars size => vars.length = size) local_variables
        chip.num_local_variables →
      trace_evals.length ≠ chip.trace_window_dimensions.length →
      ChipData.new E chip local_variables trace_evals quotient_evals log_height =
        .error (.NumTraces trace_evals.length chip.trace_window_dimensions.length)) ∧
    ((∀ column ∈ chip.periodic, column.length ≤ 2 ^ log_height) →
      local_variables.length = chip.num_local_variables.length →
      List.Forall₂ (fun vars size => vars.length = size) local_variables
        chip.num_local_variables →
      trace_evals.length = chip.trace_window_dimensions.length →
      ∀ s seg dim, trace_evals[s]? = some seg →
        chip.trace_window_dimensions[s]? = some dim → seg.length ≠ dim.height →
        (∀ j, j < s → ∀ sj dj, trace_evals[j]? = some sj →
          chip.trace_window_dimensions[j]? = some dj → segmentOk sj dj) →
        ChipData.new E chip local_variables trace_evals quotient_evals log_height =
          .error (.SegmentHeight s seg.length dim.height)) ∧
    ((∀ column ∈ chip.periodic, column.length ≤ 2 ^ log_height) →
      local_variables.length = chip.num_local_variables.length →
      List.Forall₂ (fun vars size => vars.length = size) local_variables
        chip.num_local_variables →
      trace_evals.length = chip.trace_window_dimensions.length →
      ∀ s seg dim r row, trace_evals[s]? = some seg →
        chip.trace_window_dimensions[s]? = some dim → seg.length = dim.height →
        seg[r]? = some row → row.length ≠ dim.width →
        (∀ j, j < r → ∀ rj, seg[j]? = some rj → rj.length = dim.width) →
        (∀ j, j < s → ∀ sj dj, trace_evals[j]? = some sj →
          chip.trace_window_dimensions[j]? = some dj → segmentOk sj dj) →
        ChipData.new E chip local_variables trace_evals quotient_evals log_height =
          .error (.SegmentRowWidth s r row.length dim.width)) ∧
    ((∀ column ∈ chip.periodic, column.length ≤ 2 ^ log_height) →
      local_variables.length = chip.num_local_variables.length →
      List.Forall₂ (fun vars size => vars.length = size) local_variables
        chip.num_local_variables →
      trace_evals.length = chip.trace_window_dimensions.length →
      List.Forall₂ segmentOk trace_evals chip.trace_window_dimensions →
      quotient_evals.length ≠ chip.num_quotient_evals * E.D →
      ChipData.new E chip local_variables trace_evals quotient_evals log_height =
        .error (.NumQuotientEvals quotient_evals.length
          (chip.num_quotient_evals * E.D))) := by
  refine ⟨chipDataNew_ok_iff_shape E chip local_variables trace_evals quotient_evals
      log_height,
    chipDataNew_ok_of_shape E chip local_variables trace_evals quotient_evals log_height,
    ?_, ?_, ?_, ?_, ?_, ?_, ?_⟩
  · intro c col hc hbad hpre
    unfold ChipData.new
    have herr := checkMinHeightGo_error (2 ^ log_height) chip.periodic 0 c col hc hbad hpre
    rw [Nat.zero_add] at herr
    simp only [herr, except_dot_bind_error]
  · intro hper hbad
    unfold ChipData.new
    simp only [(checkMinHeightGo_ok_iff _ _ _).mpr hper, except_dot_bind_ok]
    rw [if_pos hbad]
  · intro hper hlvn g vars expected hv he hbad hpre
    unfold ChipData.new
    simp only [(checkMinHeightGo_ok_iff _ _ _).mpr hper, except_dot_bind_ok]
    rw [if_neg (fun hc => hc hlvn)]
    have herr := checkLocalVarsGo_error local_variables chip.num_local_variables 0 g vars
      expected hv he hbad hpre
    rw [Nat.zero_add] at herr
    simp only [herr, except_dot_bind_error]
  · intro hper hlvn hlv hbad
    unfold ChipData.new
    simp only [(checkMinHeightGo_ok_iff _ _ _).mpr hper, except_dot_bind_ok,
      (checkLocalVarsGo_ok_iff _ _ _ hlvn).mpr hlv]
    rw [if_neg (fun hc => hc hlvn), if_pos hbad]
  · intro hper hlvn hlv hten s seg dim hs hd hbad hpre
    unfold ChipData.new
    simp only [(checkMinHeightGo_ok_iff _ _ _).mpr hper, except_dot_bind_ok,
      (checkLocalVarsGo_ok_iff _ _ _ hlvn).mpr hlv]
    rw [if_neg (fun hc => hc hlvn), if_neg (fun hc => hc hten)]
    have herr := checkSegmentsGo_height_error trace_evals chip.trace_window_dimensions 0 s
      seg dim hs hd hbad hpre
    rw [Nat.zero_add] at herr
    simp only [herr, except_dot_bind_error]
  · intro hper hlvn hlv hten s seg dim r row hs hd hheight hr hbad hrpre hpre
    unfold ChipData.new
    simp only [(checkMinHeightGo_ok_iff _ _ _).mpr hper, except_dot_bind_ok,
      (checkLocalVarsGo_ok_iff _ _ _ hlvn).mpr hlv]
    rw [if_neg (fun hc => hc hlvn), if_neg (fun hc => hc hten)]
    have herr := checkSegmentsGo_row_error trace_evals chip.trace_window_dimensions 0 s
      seg dim r row hs hd hheight hr hbad hrpre hpre
    rw [Nat.zero_add] at herr
    simp only [herr, except_dot_bind_error]
  · intro hper hlvn hlv hten hte hbad
    unfold ChipData.new
    simp only [(checkMinHeightGo_ok_iff _ _ _).mpr hper, except_dot_bind_ok,
      (checkLocalVarsGo_ok_iff _ _ _ hlvn).mpr hlv,
      (checkSegmentsGo_ok_iff _ _ _ hten).mpr hte]
    rw [if_neg (fun hc => hc hlvn), if_neg (fun hc => hc hten), if_pos hbad]

theorem option_some_bind {a b : Type} (x : a) (f : a → Option b) :
    (some x).bind f = f x := rfl

theorem option_none_bind {a b : Type} (f : a → Option b) :
    (Option.none).bind f = none := rfl

theorem invGo_cons_none {F EF : Type} [Field F] [Field EF] [DecidableEq EF]
    {E : ExtField F EF} {zeta : EF} {g : F} {n : ℕ} {z0 : ZerofierExpression F}
    (zs : List (ZerofierExpression F)) (i : ℕ)
    (h : (z0.eval E zeta g n).bind tryInverse = none) :
    invZerofiersGo E zeta g n i (z0 :: zs) = .error (.UndefinedZerofierEval i) := by
  rw [invZerofiersGo, h]

theorem invGo_cons_some {F EF : Type} [Field F] [Field EF] [DecidableEq EF]
    {E : ExtField F EF} {zeta : EF} {g : F} {n : ℕ} {z0 : ZerofierExpression F} {v : EF}
    (zs : List (ZerofierExpression F)) (i : ℕ)
    (h : (z0.eval E zeta g n).bind tryInverse = some v) :
    invZerofiersGo E zeta g n i (z0 :: zs) =
      (invZerofiersGo E zeta g n (i + 1) zs).bind fun vs => Except.ok (v :: vs) := by
  rw [invZerofiersGo, h]
  rfl

theorem invZerofiersGo_error_of {F EF : Type} [Field F] [Field EF] [DecidableEq EF]
    (E : ExtField F EF) (zeta : EF) (g : F) (n : ℕ) :
    ∀ (zs : List (ZerofierExpression F)) (i k : ℕ) (z : ZerofierExpression F),
      zs[k]? = some z → (z.eval E zeta g n).bind tryInverse = none →
      (∀ j, j < k → ∀ zj, zs[j]? = some zj →
        ((zj.eval E zeta g n).bind tryInverse).isSome = true) →
      invZerofiersGo E zeta g n i zs = .error (.UndefinedZerofierEval (i + k)) := by
  intro zs
  induction zs with
  | nil => intro i k z hk _ _; simp at hk
  | cons z0 zs ih =>
      intro i k z hk hfail hpre
      cases k with
      | zero =>
          simp only [List.getElem?_cons_zero, Option.some.injEq] at hk
          subst hk
          rw [Nat.add_zero]
          exact invGo_cons_none zs i hfail
      | succ k =>
          have h0 : ((z0.eval E zeta g n).bind tryInverse).isSome = true :=
            hpre 0 (Nat.succ_pos k) z0 (by simp)
          cases h0v : (z0.eval E zeta g n).bind tryInverse with
          | none => rw [h0v] at h0; simp at h0
          | some v =>
              rw [invGo_cons_some zs i h0v]
              have herr := ih (i + 1) k z (by simpa using hk) hfail
                (fun j hj zj hzj => hpre (j + 1) (by omega) zj (by simpa using hzj))
              rw [herr, except_dot_bind_error]
              have heq : i + 1 + k = i + (k + 1) := by omega
              rw [heq]

theorem invZerofiersGo_error_elim {F EF : Type} [Field F] [Field EF] [DecidableEq EF]
    (E : ExtField F EF) (zeta : EF) (g : F) (n : ℕ) :
    ∀ (zs : List (ZerofierExpression F)) (i : ℕ) (e : DataError),
      invZerofiersGo E zeta g n i zs = .error e →
      ∃ k z, e = .UndefinedZerofierEval (i + k) ∧ zs[k]? = some z ∧
        (z.eval E zeta g n).bind tryInverse = none ∧
        ∀ j, j < k → ∀ zj, zs[j]? = some zj →
          ((zj.eval E zeta g n).bind tryInverse).isSome = true := by
  intro zs
  induction zs with
  | nil => intro i e he; rw [invZerofiersGo] at he; exact absurd he (by simp)
  | cons z0 zs ih =>
      intro i e he
      cases h0v : (z0.eval E zeta g n).bind tryInverse with
      | none =>
          rw [invGo_cons_none zs i h0v] at he
          simp only [Except.error.injEq] at he
          refine ⟨0, z0, by rw [← he, Nat.add_zero], by simp, h0v, ?_⟩
          intro j hj
          omega
      | some v =>
          rw [invGo_cons_some zs i h0v] at he
          cases hrec : invZerofiersGo E zeta g n (i + 1) zs with
          | error e2 =>
              rw [hrec, except_dot_bind_error] at he
              simp only [Except.error.injEq] at he
              subst he
              obtain ⟨k, z, hke, hkz, hkf, hkpre⟩ := ih (i + 1) e2 hrec
              refine ⟨k + 1, z, ?_, by simpa using hkz, hkf, ?_⟩
              · rw [hke]
                congr 1
                omega
              · intro j hj zj hzj
                cases j with
                | zero =>
                    simp only [List.getElem?_cons_zero, Option.some.injEq] at hzj
                    subst hzj
                    rw [h0v]
                    rfl
                | succ j =>
                    exact hkpre j (by omega) zj (by simpa using hzj)
          | ok vs =>
              rw [hrec, except_dot_bind_ok] at he
              exact absurd he (by simp)

theorem invZerofiersGo_ok_forall {F EF : Type} [Field F] [Field EF] [DecidableEq EF]
    (E : ExtField F EF) (zeta : EF) (g : F) (n : ℕ) :
    ∀ (zs : List (ZerofierExpression F)) (i : ℕ) (vs : List EF),
      invZerofiersGo E zeta g n i zs = .ok vs →
      ∀ z ∈ zs, ((z.eval E zeta g n).bind tryInverse).isSome = true := by
  intro zs
  induction zs with
  | nil => intro i vs _ z hz; simp at hz
  | cons z0 zs ih =>
      intro i vs hok z hz
      cases h0v : (z0.eval E zeta g n).bind tryInverse with
      | none =>
          rw [invGo_cons_none zs i h0v] at hok
          exact absurd hok (by simp)
      | some v =>
          rw [invGo_cons_some zs i h0v] at hok
          cases hrec : invZerofiersGo E zeta g n (i + 1) zs with
          | error e2 =>
              rw [hrec, except_dot_bind_error] at hok
              exact absurd hok (by simp)
          | ok vs2 =>
              rcases List.mem_cons.mp hz with rfl | hz2
              · rw [h0v]
                rfl
              · exact ih (i + 1) vs2 hrec z hz2

theorem mem_of_getElemQ {α : Type} {l : List α} {i : ℕ} {a : α} (h : l[i]? = some a) :
    a ∈ l := by
  obtain ⟨hlt, hget⟩ := List.getElem?_eq_some.mp h
  exact hget ▸ List.getElem_mem hlt

/-- Claim C10: the zerofier evaluator returns none when the divisor of a
division evaluates to zero, every binary operation propagates none from
either operand, and check_quotient returns UndefinedZerofierEval(idx)
exactly when inverting the evaluation of zerofier idx fails and idx is the
first such index (given that the node-evaluation phase succeeded). -/
theorem claim_C10 {F EF : Type} [Field F] [Field EF] [DecidableEq EF] (E : ExtField F EF) :
    (∀ (lhs rhs : ZerofierExpression F) (x : EF) (g : F) (n : ℕ),
      (rhs.eval E x g n = some 0 → (ZerofierExpression.Div lhs rhs).eval E x g n = none) ∧
      (lhs.eval E x g n = none ∨ rhs.eval E x g n = none →
        (ZerofierExpression.Add lhs rhs).eval E x g n = none ∧
        (ZerofierExpression.Sub lhs rhs).eval E x g n = none ∧
        (ZerofierExpression.Mul lhs rhs).eval E x g n = none ∧
        (ZerofierExpression.Div lhs rhs).eval E x g n = none)) ∧
    (∀ (data : ChipData F EF) (global_variables : List (List F)) (zeta alpha : EF)
      (evals : List EF),
      evalNodes E data.chip.nodes global_variables [data.local_variables] data.trace_evals
        (data.chip.periodic.map fun _ => (0 : EF)) = some evals →
      ∀ idx,
        (data.checkQuotient E global_variables zeta alpha =
            some (.error (.UndefinedZerofierEval idx)) ↔
          (∃ z, data.chip.zerofiers[idx]? = some z ∧
            (z.eval E zeta (E.twoAdicGenerator data.log_height)
                (2 ^ data.log_height)).bind tryInverse = none) ∧
          ∀ j, j < idx → ∀ zj, data.chip.zerofiers[j]? = some zj →
            ((zj.eval E zeta (E.twoAdicGenerator data.log_height)
                (2 ^ data.log_height)).bind tryInverse).isSome = true)) := by
  constructor
  · intro lhs rhs x g n
    constructor
    · intro hr
      cases hl : lhs.eval E x g n with
      | none => simp [ZerofierExpression.eval, hl]
      | some a => simp [ZerofierExpression.eval, hl, hr, tryInverse]
    · intro h
      refine ⟨?_, ?_, ?_, ?_⟩ <;>
      · rcases h with h | h
        · simp [ZerofierExpression.eval, h]
        · cases hl : lhs.eval E x g n with
          | none => simp [ZerofierExpression.eval, hl]
          | some a => simp [ZerofierExpression.eval, hl, h]
  · intro data global_variables zeta alpha evals hev idx
    cases hinv : invZerofiersGo E zeta (E.twoAdicGenerator data.log_height)
        (2 ^ data.log_height) 0 data.chip.zerofiers with
    | error e =>
        simp only [ChipData.checkQuotient, hev, option_some_bind, hinv]
        constructor
        · intro hcon
          have he : e = .UndefinedZerofierEval idx := by
            simpa using hcon
          subst he
          obtain ⟨k, z, hke, hkz, hkf, hkpre⟩ :=
            invZerofiersGo_error_elim E zeta _ _ _ 0 _ hinv
          have hk : idx = k := by
            simpa using hke
          subst hk
          exact ⟨⟨z, hkz, hkf⟩, fun j hj zj hzj => hkpre j hj zj hzj⟩
        · rintro ⟨⟨z, hz, hzf⟩, hpre⟩
          have herr := invZerofiersGo_error_of E zeta _ _ data.chip.zerofiers 0 idx z hz
            hzf (fun j hj zj hzj => hpre j hj zj hzj)
          rw [Nat.zero_add, hinv] at herr
          simp only [Except.error.injEq] at herr
          rw [herr]
    | ok inv =>
        simp only [ChipData.checkQuotient, hev, option_some_bind, hinv]
        constructor
        · intro hcon
          exfalso
          cases hq : quotientRLC data.chip.constraints evals inv alpha with
          | none => rw [hq, option_none_bind] at hcon; simp at hcon
          | some q =>
              rw [hq, option_some_bind] at hcon
              split at hcon <;> simp at hcon
        · rintro ⟨⟨z, hz, hzf⟩, hpre⟩
          exfalso
          have hall := invZerofiersGo_ok_forall E zeta _ _ data.chip.zerofiers 0 inv hinv
            z (mem_of_getElemQ hz)
          rw [hzf] at hall
          simp at hall

/-- Witness for C9: a periodic column of length exactly 2 to the log_height
is accepted, while one of length 3 over height 2 is rejected with MinHeight. -/
theorem claim_C9_witness :
    ChipData.new extF5 chipPeriodic2 [] [] [0] 1 = .ok ⟨chipPeriodic2, [], [], [0], 1⟩ ∧
    ChipData.new extF5 chipPeriodic3 [] [] [0] 1 = .error (.MinHeight 0 3 2) := by
  constructor
  · exact (claim_C9 extF5 chipPeriodic2 [] [] [0] 1).2.1
      ⟨by decide, rfl, List.Forall₂.nil, rfl, List.Forall₂.nil, by decide⟩
  · exact (claim_C9 extF5 chipPeriodic3 [] [] [0] 1).2.2.1 0 [1, 1, 1] rfl (by decide)
      (fun j hj => absurd hj (by omega))

/-- Witness for C10: with zerofiers [1, 0], check_quotient reports the
undefined inverse at index 1, index 0 having inverted successfully. -/
theorem claim_C10_witness :
    (ChipData.mk chipTwoZf [] [] [0] 0).checkQuotient extF5 [] 2 0 =
      some (.error (.UndefinedZerofierEval 1)) := by
  refine ((claim_C10 extF5).2 (ChipData.mk chipTwoZf [] [] [0] 0) [] 2 0 [0] (by decide)
      1).mpr ⟨⟨.Constant 0, by decide, by decide⟩, ?_⟩
  intro j hj zj hzj
  interval_cases j
  have h0 : chipTwoZf.zerofiers[0]? = some (ZerofierExpression.Constant (1 : F5)) := rfl
  rw [h0] at hzj
  simp only [Option.some.injEq] at hzj
  subst hzj
  decide

end Plonky3
